import Mathlib

/-!
# Verification of the tk-multi-data-validation rule-resolution core

This file gives a shallow embedding of the data-validation engine of the
repository (`api/manager.py`, `api/data/validation_rule.py`,
`api/data/validation_rule_type.py`) and proves properties of it.

The embedding follows the Python source:

* `ValidationManager._process_rules` (the resolution engine) becomes
  `engRun` / `seedPhase` / `fetchLoop` / `drain` over an explicit
  `EngState`.  Python sets popped in unspecified order are modelled as
  lists popped from the head; the processed dict is modelled by the
  `trace` list (order of `process` invocations); the `failed` set and
  `rule_ids` set are lists with membership.
* `ValidationRule.exec_check` / `exec_fix` become `execCheck` / `execFix`
  over an explicit `RuleState`, with the check/fix callables modelled as
  functions over an abstract world type that either return a value or
  raise.  The calls are instrumented with `invoked` / `raised` /
  `performed` flags so that theorems can speak about what a call did.
* `ValidationManager.validate` / `resolve` / `resolve_rule` /
  `validate_rule` become `validateM` / `resolveM` / `resolveRuleCall` /
  `validateRuleCall` over a `MgrState`.
* `ValidationRuleType` becomes `VRuleType` with `getTypeForRule` and
  `isRuleAccepted`.
-/

namespace DataValidation

/-! ## The resolution engine (`ValidationManager._process_rules`) -/

/-- The data of a rule seen by the resolution engine: its id and its list of
dependency ids (`rule.get_dependency_ids()`, i.e. the keys of the rule's
`dependencies` dict, hence duplicate-free in the source). -/
structure ERule where
  id : String
  deps : List String
deriving DecidableEq, Repr

/-- The local state of one `_process_rules` call.  `trace` plays the role of
the `processed` dict: it records, in order, the ids for which the
`process_rule_callback` has been invoked.  `user` is the external state
threaded through the per-rule callback (rule states, error map, world). -/
structure EngState (σ : Type) where
  ruleIds : List String := []
  trace : List String := []
  failed : List String := []
  allDependencies : List String := []
  depsMap : List (String × List String) := []
  queue : List String := []
  queueCount : Nat := 0
  user : σ
deriving Repr, DecidableEq

/-- Look up an association list. -/
def lookupA {α : Type} (m : List (String × α)) (k : String) : Option α :=
  match m with
  | [] => none
  | (k', v) :: rest => if k' = k then some v else lookupA rest k

/-- Replace the value at a key of an association list, if the key is present
(mirrors mutating the set object stored in the Python `dependencies` dict). -/
def updateA {α : Type} (m : List (String × α)) (k : String) (v : α) :
    List (String × α) :=
  match m with
  | [] => []
  | (k', v') :: rest => if k' = k then (k, v) :: rest else (k', v') :: updateA rest k v

/-- Insert-or-replace in an association list (mirrors assigning an attribute
on an object that always exists, stored here keyed by rule id). -/
def writeA {α : Type} (m : List (String × α)) (k : String) (v : α) :
    List (String × α) :=
  match m with
  | [] => [(k, v)]
  | (k', v') :: rest => if k' = k then (k, v) :: rest else (k', v') :: writeA rest k v

/-- `__process_rule`: run the callback, add the id to `failed` if it did not
succeed, and record it as processed (append to the trace). -/
def processRuleCb (proc : String → σ → σ × Bool) (rid : String) (st : EngState σ) :
    EngState σ :=
  let r := proc rid st.user
  { st with
    user := r.1
    failed := if r.2 then st.failed else rid :: st.failed
    trace := st.trace ++ [rid] }

/-- `__process`: add the rule id to `rule_ids`; if it has no dependencies,
process it immediately (returning `true`); otherwise record its dependency
set, add the not-yet-seen dependencies to `all_dependencies`, and enqueue
it (returning `false`).  The Python guard `rule in rule_ids` compares a rule
object against a set of id strings and is therefore never true, so it is not
modelled. -/
def engProcess (proc : String → σ → σ × Bool) (r : ERule) (st : EngState σ) :
    EngState σ × Bool :=
  let ids' := r.id :: st.ruleIds
  let st := { st with ruleIds := ids' }
  if r.deps = [] then
    (processRuleCb proc r.id st, true)
  else
    ({ st with
        depsMap := (r.id, r.deps) :: st.depsMap
        allDependencies := st.allDependencies ++ r.deps.filter (fun d => d ∉ ids')
        queue := st.queue ++ [r.id] }, false)

/-- One seed step: process the rule if accepted, incrementing `queue_count`
when it was enqueued rather than processed immediately. -/
def seedOne (accept : ERule → Bool) (proc : String → σ → σ × Bool) (r : ERule)
    (st : EngState σ) : EngState σ :=
  if accept r then
    let pr := engProcess proc r st
    if pr.2 then pr.1 else { pr.1 with queueCount := pr.1.queueCount + 1 }
  else st

/-- Seed pass (step 1 of `_process_rules`): iterate over the target rules. -/
def seedPhase (accept : ERule → Bool) (proc : String → σ → σ × Bool) :
    List ERule → EngState σ → EngState σ
  | [], st => st
  | r :: rs, st => seedPhase accept proc rs (seedOne accept proc r st)

/-- Find a rule in the manager's registry (`ValidationManager.get_rule`). -/
def getRule (registry : List ERule) (rid : String) : Option ERule :=
  registry.find? (fun r => r.id = rid)

/-- An upper bound on the number of iterations the dependency-discovery loop
can still perform: one per pending dependency id, plus, for every registry
rule not yet in scope, one for fetching it and one per dependency id it
would add.  Strictly decreases at every loop iteration (`fetchLoop_measure`
below), so it serves as the loop's fuel. -/
def depWeight (registry : List ERule) (st : EngState σ) : Nat :=
  st.allDependencies.length +
    ((registry.filter (fun r => r.id ∉ st.ruleIds)).map
      (fun r => 1 + r.deps.length)).sum

/-- Dependency-discovery loop (step 2 of `_process_rules`).  `fetch` is the
`fetch_dependencies` argument (`none` models Python `None`, i.e. ask);
`ask` is the answer the confirmation prompt would give.  Returns
`Sum.inl st` when the run is cancelled (prompt answered no) and
`Sum.inr st` when the loop drained `all_dependencies`.  The structural
`fuel` argument only serves termination: `engRun` passes `depWeight`, which
bounds the iteration count, so the zero-fuel branch is unreachable
(`fetchLoop_inr_empty` below proves the exit really drained the set). -/
def fetchLoop (registry : List ERule) (proc : String → σ → σ × Bool)
    (fetch : Option Bool) (ask : Bool) :
    Nat → EngState σ → EngState σ ⊕ EngState σ
  | 0, st => Sum.inr st
  | fuel + 1, st =>
    match st.allDependencies with
    | [] => Sum.inr st
    | d :: rest =>
      let st' := { st with allDependencies := rest }
      if d ∈ st.ruleIds then
        fetchLoop registry proc fetch ask fuel st'
      else
        match getRule registry d with
        | none => fetchLoop registry proc fetch ask fuel st'
        | some r =>
          -- a pending `None` policy is resolved by the prompt, once per run
          let fetch' := match fetch with
            | none => some ask
            | some b => some b
          if fetch' = some true then
            let pr := engProcess proc r st'
            fetchLoop registry proc fetch' ask fuel
              (if pr.2 then pr.1 else { pr.1 with queueCount := pr.1.queueCount + 1 })
          else
            Sum.inl st'

/-- The inner dependency scan of the queue-drain loop (the
`while rule_dependencies and not has_dependencies and dependency_failed is None`
loop): pop dependency ids one by one; out-of-scope ids and already-processed
ids are dropped; a failed dependency stops the scan (and is dropped);
a not-yet-processed in-scope dependency stops the scan and is put back.
Returns `(remaining dependency set, has_dependencies, dependency_failed)`. -/
def scanDeps (ruleIds trace failed : List String) :
    List String → List String × Bool × Option String
  | [] => ([], false, none)
  | d :: rest =>
    if d ∉ ruleIds then scanDeps ruleIds trace failed rest
    else if d ∈ failed then (rest, false, some d)
    else if d ∈ trace then scanDeps ruleIds trace failed rest
    else (rest ++ [d], true, none)

/-- Result of one `_process_rules` call.  `canceled` models the early
`return` taken when the dependency prompt is answered no; `cycle` models the
`RecursionError("Detected cycle in Validation Rule dependencies.")`. -/
inductive EngResult (σ : Type) where
  | done (st : EngState σ)
  | canceled (st : EngState σ)
  | cycle (st : EngState σ)
deriving Repr, DecidableEq

/-- The queue-drain loop (step 3 of `_process_rules`).  `budget` is the
number of dequeue operations the iteration-count check still allows
(`max_iters + 1 - iter_count`): the source raises exactly when the loop head
is reached with a non-empty queue and `iter_count > max_iters`. -/
def drain (sfd : String → Option String → σ → σ) (proc : String → σ → σ × Bool) :
    Nat → EngState σ → EngResult σ
  | budget, st =>
    match st.queue with
    | [] => .done st
    | rid :: rest =>
      match budget with
      | 0 => .cycle st
      | b + 1 =>
        let st := { st with queue := rest }
        let rem := (lookupA st.depsMap rid).getD []
        let sc := scanDeps st.ruleIds st.trace st.failed rem
        let st := { st with depsMap := updateA st.depsMap rid sc.1 }
        if sc.2.1 = true ∧ sc.2.2 = none then
          drain sfd proc b { st with queue := st.queue ++ [rid] }
        else
          drain sfd proc b
            (processRuleCb proc rid { st with user := sfd rid sc.2.2 st.user })

/-- `max_iters = queue_count + (queue_count * (queue_count - 1) / 2)`
(exact: `queue_count * (queue_count - 1)` is even). -/
def maxIters (queueCount : Nat) : Nat :=
  queueCount + queueCount * (queueCount - 1) / 2

/-- The whole of `ValidationManager._process_rules`, over target rules
`rules`, a registry (the manager's rules, for dependency fetching), the
optional acceptance predicate, the `set_failed_dependency` action `sfd`,
and the per-rule `process_rule_callback` `proc`. -/
def engRun (registry : List ERule) (accept : ERule → Bool)
    (sfd : String → Option String → σ → σ) (proc : String → σ → σ × Bool)
    (rules : List ERule) (fetch : Option Bool) (ask : Bool) (s0 : σ) :
    EngResult σ :=
  if rules = [] then .done { user := s0 }
  else
    let st1 := seedPhase accept proc rules { user := s0 }
    match (if fetch = some false then Sum.inr st1
           else fetchLoop registry proc fetch ask (depWeight registry st1) st1) with
    | Sum.inl stc => .canceled stc
    | Sum.inr st2 => drain sfd proc (maxIters st2.queueCount + 1) st2

/-- The engine state carried by a result. -/
def EngResult.state : EngResult σ → EngState σ
  | .done st => st
  | .canceled st => st
  | .cycle st => st

/-- The order in which the process callback was invoked. -/
def EngResult.traceOf (r : EngResult σ) : List String := r.state.trace

def EngResult.isDone : EngResult σ → Bool
  | .done _ => true
  | _ => false

def EngResult.isCanceled : EngResult σ → Bool
  | .canceled _ => true
  | _ => false

def EngResult.isCycle : EngResult σ → Bool
  | .cycle _ => true
  | _ => false

/-! ## Validation rules (`ValidationRule`) -/

/-- A Python value as far as `exec_fix` / `resolve_rule` observe it: the fix
callable may return anything; `resolve_rule` tests `result is None or
result is True`. -/
inductive PyVal where
  | none
  | bool (b : Bool)
  | int (n : Int)
deriving DecidableEq, Repr

/-- Python truthiness of a `PyVal`. -/
def pyTruthy : PyVal → Bool
  | .none => false
  | .bool b => b
  | .int n => n ≠ 0

/-- Behaviour of one invocation of a check callable, after the sanitizer:
either the sanitized result carries the required `is_valid` / `errors`
fields, or the invocation raises (a raising callable, and a sanitized result
missing required fields — the `ValueError` of `_process_check_result` — are
both caught by the same `except` in `exec_check`).  Error items are modelled
as natural numbers, exceptions as a numeric code. -/
inductive CheckRes where
  | ok (isValid : Bool) (errors : List Nat)
  | raise (e : Nat)
deriving DecidableEq, Repr

/-- Behaviour of one invocation of a fix callable: return a value or raise. -/
inductive FixRes where
  | ret (v : PyVal)
  | raise (e : Nat)
deriving DecidableEq, Repr

/-- The immutable data of a `ValidationRule` (from `rule_data`), with the
check and fix callables as functions over a world type `ω` (the DCC data
plus any instrumentation).  The fix callable also receives the rule's
current `errors` (the `errors` kwarg). -/
structure RuleDef (ω : Type) where
  id : String
  name : String := ""
  required : Bool := true
  checked : Bool := false
  deps : List String := []
  checkFn : Option (ω → ω × CheckRes) := Option.none
  fixFn : Option (ω → Option (List Nat) → ω × FixRes) := Option.none

/-- `ValidationRule.manual`: no check and no fix callable. -/
def RuleDef.manual (rd : RuleDef ω) : Bool :=
  !(rd.checkFn.isSome || rd.fixFn.isSome)

/-- The mutable execution state of a `ValidationRule`. -/
structure RuleState where
  valid : Option Bool := Option.none
  errorItems : Option (List Nat) := Option.none
  fixExecuted : Bool := false
  checkExc : Option Nat := Option.none
  fixExc : Option Nat := Option.none
  failedDependency : Option String := Option.none
  manualChecked : Bool := false
deriving DecidableEq, Repr

/-- The state of a `ValidationRule` right after construction. -/
def initRuleState : RuleState := {}

/-- Everything one `exec_check` call did: the updated rule state and world,
whether the call was `performed` (not skipped by the failed-dependency
guard), whether the check callable was `invoked`, and whether it `raised`. -/
structure CheckCall (ω : Type) where
  st : RuleState
  w : ω
  performed : Bool
  invoked : Bool
  raised : Bool

/-- `ValidationRule.exec_check`. -/
def execCheck (rd : RuleDef ω) (st : RuleState) (w : ω) (force : Bool) :
    CheckCall ω :=
  -- reset the check runtime exception
  let st := { st with checkExc := Option.none }
  if !force ∧ st.failedDependency.isSome then
    -- failed dependency: record that the check was not run
    ⟨{ st with valid := Option.none, errorItems := Option.none }, w, false, false, false⟩
  else
    match rd.checkFn with
    | some f =>
      match f w with
      | (w', .ok v errs) =>
        ⟨{ st with valid := some v, errorItems := some errs }, w', true, true, false⟩
      | (w', .raise e) =>
        ⟨{ st with checkExc := some e, valid := some false, errorItems := Option.none },
          w', true, true, true⟩
    | Option.none =>
      if rd.fixFn.isNone then
        -- manual rule: valid iff the user checked it off
        ⟨{ st with valid := some st.manualChecked, errorItems := Option.none },
          w, true, false, false⟩
      else
        -- no check but a fix: trivially valid
        ⟨{ st with valid := some true, errorItems := Option.none }, w, true, false, false⟩

/-- Everything one `exec_fix` call did: the updated rule state and world, the
returned value (`exec_fix`'s Python return value), whether the fix callable
was `invoked`, whether it `raised`, and whether the pre-validation ran a
check that was `performed` (not skipped). -/
structure FixCall (ω : Type) where
  st : RuleState
  w : ω
  val : PyVal
  invoked : Bool
  raised : Bool
  checkAttempted : Bool
  checkPerformed : Bool

/-- `ValidationRule.exec_fix`.  The pre-validation check (`exec_check()` with
its default `force=False`) runs on the state whose fix runtime exception was
just reset; when `preValidate` is false its result is discarded. -/
def execFix (rd : RuleDef ω) (st : RuleState) (w : ω) (preValidate force : Bool) :
    FixCall ω :=
  -- reset the fix runtime exception
  let c := execCheck rd { st with fixExc := Option.none } w false
  let st1 : RuleState := if preValidate then c.st else { st with fixExc := Option.none }
  let w1 : ω := if preValidate then c.w else w
  let cp : Bool := if preValidate then c.performed else false
  if rd.checkFn.isSome ∧ st1.valid = some true then
    -- already valid: nothing to fix
    ⟨st1, w1, .bool true, false, false, preValidate, cp⟩
  else
    match rd.fixFn with
    | Option.none => ⟨st1, w1, .bool false, false, false, preValidate, cp⟩
    | some f =>
      if !force ∧ st1.failedDependency.isSome then
        ⟨st1, w1, .bool false, false, false, preValidate, cp⟩
      else
        match f w1 st1.errorItems with
        | (w', .ret v) =>
          ⟨{ st1 with fixExecuted := true }, w', v, true, false, preValidate, cp⟩
        | (w', .raise e) =>
          ⟨{ st1 with fixExc := some e }, w', .bool false, true, true, preValidate, cp⟩

/-- An operation applied to a rule after construction. -/
inductive ROp where
  | check (force : Bool)
  | fix (preValidate force : Bool)
  | setFailedDep (d : Option String)
  | setManualChecked (b : Bool)

/-- Apply one operation; the `Bool` component tracks whether the most recent
check attempt (including pre-validation inside `exec_fix`) was performed
rather than skipped (`false` while no check has been attempted). -/
def applyOp (rd : RuleDef ω) : RuleState × ω × Bool → ROp → RuleState × ω × Bool
  | (st, w, last), .check force =>
    let c := execCheck rd st w force
    (c.st, c.w, c.performed)
  | (st, w, last), .fix pre force =>
    let c := execFix rd st w pre force
    (c.st, c.w, if c.checkAttempted then c.checkPerformed else last)
  | (st, w, last), .setFailedDep d => ({ st with failedDependency := d }, w, last)
  | (st, w, last), .setManualChecked b => ({ st with manualChecked := b }, w, last)

/-- Run a sequence of operations on a freshly constructed rule. -/
def runOps (rd : RuleDef ω) (w0 : ω) (ops : List ROp) : RuleState × ω × Bool :=
  ops.foldl (applyOp rd) (initRuleState, w0, false)

/-! ## Rule types (`ValidationRuleType`) -/

def RULE_TYPE_NONE : Nat := 0
def RULE_TYPE_AUTO : Nat := 1
def RULE_TYPE_REQUIRED : Nat := 2
def RULE_TYPE_OPTIONAL : Nat := 3
def RULE_TYPE_MANUAL : Nat := 4
def RULE_TYPE_ACTIVE : Nat := 5

/-- `ValidationRuleType`: identified by its type id (`__eq__` compares ids). -/
structure VRuleType where
  id : Nat
deriving DecidableEq, Repr

/-- `ValidationRuleType.get_type_for_rule`: `Required` when the rule is
required, else `Optional`. -/
def getTypeForRule (rd : RuleDef ω) : VRuleType :=
  if rd.required then ⟨RULE_TYPE_REQUIRED⟩ else ⟨RULE_TYPE_OPTIONAL⟩

/-- `ValidationRuleType.is_rule_accepted`: the `Active` type has the custom
predicate `rule.required or rule.checked`; every other type uses the default
`rule.type == self` (id equality, with `rule.type` assigned at construction
by `get_type_for_rule`). -/
def isRuleAccepted (t : VRuleType) (rd : RuleDef ω) : Bool :=
  if t.id = RULE_TYPE_ACTIVE then rd.required || rd.checked
  else decide ((getTypeForRule rd).id = t.id)

/-! ## The manager (`ValidationManager`) -/

/-- A validation manager: the set of rules built at construction, in
insertion order (`self.__rules_by_id`). -/
structure Manager (ω : Type) where
  defs : List (RuleDef ω)

/-- The engine view of a rule. -/
def toERule (rd : RuleDef ω) : ERule := ⟨rd.id, rd.deps⟩

/-- The manager's rules as engine rules (`self.rules`). -/
def Manager.registry (mgr : Manager ω) : List ERule := mgr.defs.map toERule

/-- `ValidationManager.get_rule`, at the `RuleDef` level. -/
def findDef (mgr : Manager ω) (rid : String) : Option (RuleDef ω) :=
  mgr.defs.find? (fun rd => rd.id = rid)

/-- The manager-side mutable state: every rule's execution state (keyed by
id, missing keys meaning a freshly constructed rule), the `__errors` map
(as its ordered key list) and the external world. -/
structure MgrState (ω : Type) where
  ruleStates : List (String × RuleState) := []
  errors : List String := []
  world : ω
deriving Repr, DecidableEq

/-- Read a rule's state. -/
def getRS (s : MgrState ω) (rid : String) : RuleState :=
  (lookupA s.ruleStates rid).getD initRuleState

/-- `set_failed_dependency` as the engine's per-rule action. -/
def mgrSfd (rid : String) (d : Option String) (s : MgrState ω) : MgrState ω :=
  { s with ruleStates :=
      writeA s.ruleStates rid { getRS s rid with failedDependency := d } }

/-- Add a rule id to the `__errors` dict (assignment keeps the position of
an existing key). -/
def insertErr (errors : List String) (rid : String) : List String :=
  if rid ∈ errors then errors else errors ++ [rid]

/-- `ValidationManager.validate_rule`: run the rule's check, update the
error map from `rule.valid`, and return `rule.valid` (whose Python
truthiness — `some true` here — is what `_process_rules` receives). -/
def validateRuleCall (mgr : Manager ω) (rid : String) (s : MgrState ω) :
    MgrState ω × Bool :=
  match findDef mgr rid with
  | Option.none => (s, false)
  | some rd =>
    let c := execCheck rd (getRS s rid) s.world false
    let s := { s with ruleStates := writeA s.ruleStates rid c.st, world := c.w }
    if c.st.valid = some true then
      ({ s with errors := s.errors.erase rid }, true)
    else
      ({ s with errors := insertErr s.errors rid }, false)

/-- `ValidationManager.resolve_rule`: run `exec_fix`; success iff the result
is identically `None` or identically `True` (`result is None or result is
True`). -/
def resolveRuleCall (mgr : Manager ω) (pre : Bool) (rid : String) (s : MgrState ω) :
    MgrState ω × Bool :=
  match findDef mgr rid with
  | Option.none => (s, false)
  | some rd =>
    let c := execFix rd (getRS s rid) s.world pre false
    ({ s with ruleStates := writeA s.ruleStates rid c.st, world := c.w },
      c.val = PyVal.none || c.val = PyVal.bool true)

/-- `ValidationManager.validate_rules` (no `accept_rule_fn` set). -/
def validateRules (mgr : Manager ω) (targets : List ERule) (fetch : Option Bool)
    (ask : Bool) (s : MgrState ω) : EngResult (MgrState ω) :=
  engRun mgr.registry (fun _ => true) mgrSfd (validateRuleCall mgr) targets fetch ask s

/-- `ValidationManager.resolve_rules` (no `accept_rule_fn` set). -/
def resolveRules (mgr : Manager ω) (targets : List ERule) (pre : Bool)
    (fetch : Option Bool) (ask : Bool) (s : MgrState ω) : EngResult (MgrState ω) :=
  engRun mgr.registry (fun _ => true) mgrSfd (resolveRuleCall mgr pre) targets fetch ask s

/-- `ValidationManager.validate`: reset the error map, validate every rule
(`fetch_dependencies` defaulting to `True`), return whether the error map is
empty.  A `RecursionError` from `_process_rules` propagates (`Except.error`). -/
def validateM (mgr : Manager ω) (s : MgrState ω) : Except Unit (Bool × MgrState ω) :=
  let s := { s with errors := [] }
  match validateRules mgr mgr.registry (some true) true s with
  | .cycle _ => .error ()
  | r => .ok (r.state.user.errors.isEmpty, r.state.user)

/-- Python `set(...)` equality of two key lists. -/
def sameSet (a b : List String) : Bool :=
  a.all (fun x => x ∈ b) && b.all (fun x => x ∈ a)

/-- The current error set as engine target rules (`self.errors.values()`). -/
def errTargets (mgr : Manager ω) (s : MgrState ω) : List ERule :=
  s.errors.filterMap (fun rid => (findDef mgr rid).map toERule)

/-- The retry loop of `ValidationManager.resolve`.  `fuel` is
`max_retry - count`; `prev` is `prev_errors`.  Returns the final success
flag, state, and the number of resolve attempts performed by the loop. -/
def retryLoop (mgr : Manager ω) : Nat → List String → MgrState ω →
    Except Unit (Bool × MgrState ω × Nat)
  | 0, _, s => .ok (false, s, 0)
  | fuel + 1, prev, s =>
    if sameSet prev s.errors then
      -- nothing changed since the last attempt: stop retrying
      .ok (false, s, 0)
    else
      let tgts := s.errors
      match resolveRules mgr (errTargets mgr s) true (some false) true s with
      | .cycle _ => .error ()
      | r =>
        match validateM mgr r.state.user with
        | .error _ => .error ()
        | .ok (true, s2) => .ok (true, s2, 1)
        | .ok (false, s2) =>
          match retryLoop mgr fuel tgts s2 with
          | .error _ => .error ()
          | .ok (b, s3, n) => .ok (b, s3, n + 1)

/-- `ValidationManager.resolve`: resolve every rule (dependencies not
fetched — everything is in scope), optionally validate, then retry on the
residual error set at most `len(self.rules)` times.  Returns the success
flag and the number of retry-loop resolve attempts. -/
def resolveM (mgr : Manager ω) (pre post retry : Bool) (s : MgrState ω) :
    Except Unit (Bool × MgrState ω × Nat) :=
  match resolveRules mgr mgr.registry pre (some false) true s with
  | .cycle _ => .error ()
  | r =>
    let s1 := r.state.user
    if post || retry then
      match validateM mgr s1 with
      | .error _ => .error ()
      | .ok (success, s2) =>
        if !success && retry then retryLoop mgr mgr.defs.length [] s2
        else .ok (success, s2, 0)
    else .ok (true, s1, 0)

/-! ## Specification-level notions for the engine -/

/-- The registry's ids. -/
def regIds (registry : List ERule) : List String := registry.map ERule.id

/-- The dependency ids of a rule id, as the registry records them. -/
def depsOfId (registry : List ERule) (rid : String) : List String :=
  ((getRule registry rid).map ERule.deps).getD []

/-- Reachability: the accepted targets, plus, transitively, the declared
dependencies of reachable rules that the registry can resolve. -/
inductive EReach (registry : List ERule) (accept : ERule → Bool)
    (targets : List ERule) : String → Prop
  | tgt : ∀ r, r ∈ targets → accept r = true → EReach registry accept targets r.id
  | dep : ∀ rid r d, EReach registry accept targets rid →
      getRule registry rid = some r → d ∈ r.deps → EReach registry accept targets d

/-- The set of rule ids a run with the given fetch policy should process:
all accepted targets, plus their transitive in-registry dependencies unless
dependency fetching is disabled. -/
def reachSpec (registry : List ERule) (accept : ERule → Bool)
    (targets : List ERule) (fetch : Option Bool) (x : String) : Prop :=
  match fetch with
  | some false => ∃ r ∈ targets, accept r = true ∧ r.id = x
  | _ => EReach registry accept targets x ∧ x ∈ regIds registry

/-- The remaining (not yet discharged) dependency set of a queued rule. -/
def remOf (st : EngState σ) (rid : String) : List String :=
  (lookupA st.depsMap rid).getD []

/-- Every rule id taken into scope is either already processed or waiting in
the queue. -/
def scopeOK (st : EngState σ) : Prop :=
  ∀ x ∈ st.ruleIds, x ∈ st.trace ∨ x ∈ st.queue

/-- The amended processing-order property: when a rule is processed, each of
its in-scope declared dependencies has already been processed — unless one
of its declared dependencies had already been processed and failed (the scan
stops at the first failed dependency and the rule is processed at once,
marked with that failed dependency). -/
def orderRespected (registry : List ERule) (st : EngState σ) : Prop :=
  ∀ k, ∀ hk : k < st.trace.length, ∀ d ∈ depsOfId registry (st.trace.get ⟨k, hk⟩),
    d ∈ st.ruleIds →
      d ∈ st.trace.take k ∨
      ∃ e ∈ depsOfId registry (st.trace.get ⟨k, hk⟩),
        e ∈ st.trace.take k ∧ e ∈ st.failed

/-- Every declared dependency of an in-scope rule is in scope, still pending
discovery, or unknown to the registry. -/
def coveredBy (registry : List ERule) (st : EngState σ) : Prop :=
  ∀ x ∈ st.ruleIds, ∀ d ∈ depsOfId registry x,
    d ∈ st.ruleIds ∨ d ∈ st.allDependencies ∨ d ∉ regIds registry

/-- Invariant of the seed and dependency-discovery phases: processed and
queued rules partition the scope, nothing is processed twice, queued rules
still carry their full dependency set, and everything in scope or pending is
reachable from the accepted targets. -/
structure PhaseInv (registry : List ERule) (accept : ERule → Bool)
    (targets : List ERule) (st : EngState σ) : Prop where
  trace_nodup : st.trace.Nodup
  queue_nodup : st.queue.Nodup
  queue_fresh : ∀ r ∈ st.queue, r ∉ st.trace
  ids_iff : ∀ x, x ∈ st.ruleIds ↔ (x ∈ st.trace ∨ x ∈ st.queue)
  failed_sub : ∀ x ∈ st.failed, x ∈ st.trace
  rem_full : ∀ r ∈ st.queue, lookupA st.depsMap r = some (depsOfId registry r)
  trace_nodeps : ∀ t ∈ st.trace, depsOfId registry t = []
  reach_ids : ∀ x ∈ st.ruleIds,
      EReach registry accept targets x ∧ x ∈ regIds registry
  reach_deps : ∀ d ∈ st.allDependencies, EReach registry accept targets d

/-- Invariant of the queue-drain phase: in addition to the bookkeeping of
`PhaseInv`, every dependency a queued rule has already discharged was either
out of scope or processed, and the processing order so far respects
dependencies (up to the failed-dependency shortcut). -/
structure DrainInv (registry : List ERule) (st : EngState σ) : Prop where
  trace_nodup : st.trace.Nodup
  queue_nodup : st.queue.Nodup
  queue_fresh : ∀ r ∈ st.queue, r ∉ st.trace
  ids_iff : ∀ x, x ∈ st.ruleIds ↔ (x ∈ st.trace ∨ x ∈ st.queue)
  failed_sub : ∀ x ∈ st.failed, x ∈ st.trace
  rem_sub : ∀ r ∈ st.queue, ∀ d ∈ remOf st r, d ∈ depsOfId registry r
  rem_benign : ∀ r ∈ st.queue, ∀ d ∈ depsOfId registry r,
      d ∉ remOf st r → (d ∉ st.ruleIds ∨ d ∈ st.trace)
  ordered : orderRespected registry st

/-! ## Concrete instances used by witnesses and counterexamples -/

/-- An engine action that changes nothing (the rule states live elsewhere in
the engine-level runs below). -/
def sfdUnit : String → Option String → Unit → Unit := fun _ _ u => u

/-- A process callback that always succeeds. -/
def procTrue : String → Unit → Unit × Bool := fun _ u => (u, true)

/-- A process callback for which exactly rule "A" fails. -/
def procFailA : String → Unit → Unit × Bool := fun rid u => (u, rid ≠ "A")

/-- A process callback for which exactly rule "F" fails. -/
def procFailF : String → Unit → Unit × Bool := fun rid u => (u, rid ≠ "F")

def erA : ERule := ⟨"A", []⟩
def erB : ERule := ⟨"B", ["A"]⟩
def erR : ERule := ⟨"R", ["A", "B"]⟩
def erBC : ERule := ⟨"B", ["C"]⟩
def erC : ERule := ⟨"C", []⟩
def erX : ERule := ⟨"X", ["Y"]⟩
def erY : ERule := ⟨"Y", ["Z"]⟩
def erZ : ERule := ⟨"Z", ["X"]⟩
def erF : ERule := ⟨"F", []⟩
def erXF : ERule := ⟨"X", ["F", "Y"]⟩
def erYX : ERule := ⟨"Y", ["X"]⟩
def erRM : ERule := ⟨"R", ["M"]⟩

/-- A run exhibiting that a rule (here `R`) is processed as soon as a failed
dependency (`A`) is discovered, before its other in-scope dependency (`B`)
has been processed. -/
def c1ctrRun : EngResult Unit :=
  engRun [erA, erR, erBC, erC] (fun _ => true) sfdUnit procFailA
    [erA, erR, erBC] (some true) true ()

/-- A small clean run (a target depending on another target). -/
def c1wRun : EngResult Unit :=
  engRun [erA, erB] (fun _ => true) sfdUnit procTrue [erA, erB] (some true) true ()

def c1wState : EngState Unit :=
  match c1wRun with
  | .done st => st
  | .canceled st => st
  | .cycle st => st

/-- The same target passed twice: the `rule in rule_ids` guard of `__process`
compares the rule object against a set of id strings, so it never fires and
the duplicated target is processed twice. -/
def c1dupRun : EngResult Unit :=
  engRun [erA] (fun _ => true) sfdUnit procTrue [erA, erA] (some true) true ()

/-- The three-rule dependency cycle X → Y → Z → X, resolved with dependency
fetching enabled. -/
def c2cycRun : EngResult Unit :=
  engRun [erX, erY, erZ] (fun _ => true) sfdUnit procTrue [erX, erY, erZ]
    (some true) true ()

/-- A run whose in-scope dependency graph contains the cycle X → Y → X, yet
which completes without a cycle error because X is unblocked by its failed
dependency F. -/
def c2ctrRun : EngResult Unit :=
  engRun [erF, erXF, erYX] (fun _ => true) sfdUnit procFailF [erF, erXF, erYX]
    (some true) true ()

/-- A one-rule engine state whose single queued rule depends on itself: the
smallest locked cycle, used to instantiate the general cycle theorem. -/
def c2wSt : EngState Unit :=
  { ruleIds := ["W"], trace := [], failed := [], allDependencies := [],
    depsMap := [("W", ["W"])], queue := ["W"], queueCount := 1, user := () }

/-- A rule whose only declared dependency is unknown to the registry,
resolved with dependency fetching explicitly disabled. -/
def c5ctrRun : EngResult Unit :=
  engRun [erRM] (fun _ => true) sfdUnit procTrue [erRM] (some false) true ()

def c5wState : EngState Unit :=
  match c5ctrRun with
  | .done st => st
  | .canceled st => st
  | .cycle st => st

/-- C3 world: invocation counters for the fix callables of A, B and C. -/
def c3A : RuleDef (Nat × Nat × Nat) :=
  { id := "A",
    fixFn := some (fun w _ => ((w.1 + 1, w.2.1, w.2.2), .ret (.bool false))) }

def c3B : RuleDef (Nat × Nat × Nat) :=
  { id := "B", deps := ["A"],
    fixFn := some (fun w _ => ((w.1, w.2.1 + 1, w.2.2), .ret (.bool true))) }

def c3C : RuleDef (Nat × Nat × Nat) :=
  { id := "C", deps := ["B"],
    fixFn := some (fun w _ => ((w.1, w.2.1, w.2.2 + 1), .ret (.bool true))) }

def c3Mgr : Manager (Nat × Nat × Nat) := ⟨[c3A, c3B, c3C]⟩

/-- `resolve_rules([A, B, C])` with its default `fetch_dependencies=None`
(the prompt is never reached: every dependency is already in scope). -/
def c3Run : EngResult (MgrState (Nat × Nat × Nat)) :=
  resolveRules c3Mgr c3Mgr.registry true Option.none true { world := (0, 0, 0) }

/-- A rule whose check always reports invalid and whose fix always succeeds
without changing anything. -/
def c6Z : RuleDef Unit :=
  { id := "Z", checkFn := some (fun w => (w, .ok false [])),
    fixFn := some (fun w _ => (w, .ret (.bool true))) }

def c6Mgr : Manager Unit := ⟨[c6Z]⟩

/-- `resolve(pre_validate=True, post_validate=False, retry_until_success=True)`
on the manager with the never-converging rule. -/
def c6Result : Except Unit (Bool × MgrState Unit × Nat) :=
  resolveM c6Mgr true false true { world := () }

/-- The final manager state of that resolve call. -/
def c6Final : MgrState Unit :=
  match c6Result with
  | .ok (_, s, _) => s
  | .error _ => { world := () }

/-- A rule whose fix returns the truthy value `1` (not identically `True`). -/
def c7R : RuleDef Unit := { id := "R", fixFn := some (fun w _ => (w, .ret (.int 1))) }

def c7Mgr : Manager Unit := ⟨[c7R]⟩

/-- Two rules: F's fix raises, G's fix succeeds; the world counts their
invocations. -/
def c7F : RuleDef (Nat × Nat) :=
  { id := "F", fixFn := some (fun w _ => ((w.1 + 1, w.2), .raise 3)) }

def c7G : RuleDef (Nat × Nat) :=
  { id := "G", fixFn := some (fun w _ => ((w.1, w.2 + 1), .ret (.bool true))) }

def c7Mgr2 : Manager (Nat × Nat) := ⟨[c7F, c7G]⟩

def c7Run : EngResult (MgrState (Nat × Nat)) :=
  resolveRules c7Mgr2 c7Mgr2.registry true (some false) true { world := (0, 0) }

/-- A rule whose check callable raises (the world counts the invocation). -/
def ruleRaisingCheck : RuleDef Nat :=
  { id := "R", checkFn := some (fun w => (w + 1, .raise 5)) }

/-- A rule whose fix callable raises (the world counts the invocation). -/
def ruleRaisingFix : RuleDef Nat :=
  { id := "R", fixFn := some (fun w _ => (w + 1, .raise 7)) }

/-- A rule whose fix callable returns `True`. -/
def ruleFixTrue : RuleDef Nat :=
  { id := "R", fixFn := some (fun w _ => (w + 1, .ret (.bool true))) }

/-! ## Association-list and scan lemmas -/

theorem lookupA_updateA_ne {α : Type} (m : List (String × α)) (k k' : String)
    (v : α) (h : k' ≠ k) : lookupA (updateA m k v) k' = lookupA m k' := by
  induction m with
  | nil => simp [updateA, lookupA]
  | cons a rest ih =>
    obtain ⟨ka, va⟩ := a
    by_cases hk : ka = k
    · subst hk
      simp [updateA, lookupA, Ne.symm h]
    · simp [updateA, lookupA, hk]
      by_cases hk' : ka = k'
      · simp [hk']
      · simp [hk', ih]

theorem lookupA_updateA_self {α : Type} (m : List (String × α)) (k : String)
    (v w : α) (h : lookupA m k = some w) :
    lookupA (updateA m k v) k = some v := by
  induction m with
  | nil => simp [lookupA] at h
  | cons a rest ih =>
    obtain ⟨ka, va⟩ := a
    by_cases hk : ka = k
    · subst hk
      simp [updateA, lookupA]
    · simp [lookupA, hk] at h
      simp [updateA, lookupA, hk, ih h]

theorem remOf_update_ne (st : EngState σ) (k r : String) (v : List String)
    (h : r ≠ k) :
    remOf { st with depsMap := updateA st.depsMap k v } r = remOf st r := by
  simp [remOf, lookupA_updateA_ne st.depsMap k r v h]

/-- Every element kept by the scan was in the scanned set. -/
theorem scanDeps_sub (ids tr fl : List String) :
    ∀ rem d, d ∈ (scanDeps ids tr fl rem).1 → d ∈ rem := by
  intro rem
  induction rem with
  | nil => intro d hd; simpa [scanDeps] using hd
  | cons a rest ih =>
    intro d hd
    by_cases h1 : a ∈ ids
    · by_cases h2 : a ∈ fl
      · simp [scanDeps, h1, h2] at hd
        simp [hd]
      · by_cases h3 : a ∈ tr
        · simp [scanDeps, h1, h2, h3] at hd
          simp [ih d hd]
        · simp [scanDeps, h1, h2, h3] at hd
          rcases hd with hd | hd <;> simp [hd]
    · simp [scanDeps, h1] at hd
      simp [ih d hd]

/-- Every element dropped by the scan was out of scope, already processed,
or in the failed set. -/
theorem scanDeps_dropped (ids tr fl : List String) :
    ∀ rem d, d ∈ rem → d ∉ (scanDeps ids tr fl rem).1 →
      d ∉ ids ∨ d ∈ tr ∨ d ∈ fl := by
  intro rem
  induction rem with
  | nil => intro d hd; simp at hd
  | cons a rest ih =>
    intro d hd hd'
    by_cases h1 : a ∈ ids
    · by_cases h2 : a ∈ fl
      · simp [scanDeps, h1, h2] at hd'
        rcases List.mem_cons.mp hd with rfl | hmem
        · exact Or.inr (Or.inr h2)
        · exact absurd hmem hd'
      · by_cases h3 : a ∈ tr
        · simp [scanDeps, h1, h2, h3] at hd'
          rcases List.mem_cons.mp hd with rfl | hmem
          · exact Or.inr (Or.inl h3)
          · exact ih d hmem hd'
        · simp [scanDeps, h1, h2, h3] at hd'
          rcases List.mem_cons.mp hd with rfl | hmem
          · exact absurd rfl hd'.2
          · exact absurd hmem hd'.1
    · simp [scanDeps, h1] at hd'
      rcases List.mem_cons.mp hd with rfl | hmem
      · exact Or.inl h1
      · exact ih d hmem hd'

/-- When the scan finishes with neither a pending nor a failed dependency,
every scanned dependency was out of scope, already processed, or failed. -/
theorem scanDeps_complete (ids tr fl : List String) :
    ∀ rem, (scanDeps ids tr fl rem).2.1 = false →
      (scanDeps ids tr fl rem).2.2 = none →
      ∀ d ∈ rem, d ∉ ids ∨ d ∈ tr ∨ d ∈ fl := by
  intro rem
  induction rem with
  | nil => intro _ _ d hd; simp at hd
  | cons a rest ih =>
    intro hfalse hnone d hd
    by_cases h1 : a ∈ ids
    · by_cases h2 : a ∈ fl
      · simp [scanDeps, h1, h2] at hnone
      · by_cases h3 : a ∈ tr
        · simp [scanDeps, h1, h2, h3] at hfalse hnone
          rcases List.mem_cons.mp hd with rfl | hmem
          · exact Or.inr (Or.inl h3)
          · exact ih hfalse hnone d hmem
        · simp [scanDeps, h1, h2, h3] at hfalse
    · simp [scanDeps, h1] at hfalse hnone
      rcases List.mem_cons.mp hd with rfl | hmem
      · exact Or.inl h1
      · exact ih hfalse hnone d hmem

/-- A failed dependency reported by the scan is in the failed set and among
the scanned dependencies. -/
theorem scanDeps_failed (ids tr fl : List String) :
    ∀ rem e, (scanDeps ids tr fl rem).2.2 = some e → e ∈ fl ∧ e ∈ rem := by
  intro rem
  induction rem with
  | nil => intro e he; simp [scanDeps] at he
  | cons a rest ih =>
    intro e he
    by_cases h1 : a ∈ ids
    · by_cases h2 : a ∈ fl
      · simp [scanDeps, h1, h2] at he
        subst he
        exact ⟨h2, by simp⟩
      · by_cases h3 : a ∈ tr
        · simp [scanDeps, h1, h2, h3] at he
          obtain ⟨he1, he2⟩ := ih e he
          exact ⟨he1, by simp [he2]⟩
        · simp [scanDeps, h1, h2, h3] at he
    · simp [scanDeps, h1] at he
      obtain ⟨he1, he2⟩ := ih e he
      exact ⟨he1, by simp [he2]⟩

/-- With an empty failed set, the scan cannot report a failed dependency. -/
theorem scanDeps_none_of_failed_nil (ids tr : List String) (rem : List String) :
    (scanDeps ids tr [] rem).2.2 = none := by
  cases he : (scanDeps ids tr [] rem).2.2 with
  | none => rfl
  | some e =>
    have := (scanDeps_failed ids tr [] rem e he).1
    simp at this

/-- An in-scope, unprocessed dependency (with an empty failed set) forces
the scan to report pending dependencies and survives in the remaining set. -/
theorem scanDeps_pending (ids tr : List String) :
    ∀ rem d, d ∈ rem → d ∈ ids → d ∉ tr →
      (scanDeps ids tr [] rem).2.1 = true ∧ d ∈ (scanDeps ids tr [] rem).1 := by
  intro rem
  induction rem with
  | nil => intro d hd; simp at hd
  | cons a rest ih =>
    intro d hd hids htr
    by_cases h1 : a ∈ ids
    · by_cases h3 : a ∈ tr
      · have hg : scanDeps ids tr [] (a :: rest) = scanDeps ids tr [] rest := by
          simp [scanDeps, h1, h3]
        rw [hg]
        rcases List.mem_cons.mp hd with rfl | hmem
        · exact absurd h3 htr
        · exact ih d hmem hids htr
      · have hg : scanDeps ids tr [] (a :: rest) = (rest ++ [a], true, none) := by
          simp [scanDeps, h1, h3]
        rw [hg]
        refine ⟨rfl, ?_⟩
        rcases List.mem_cons.mp hd with rfl | hmem
        · simp
        · simp [hmem]
    · have hg : scanDeps ids tr [] (a :: rest) = scanDeps ids tr [] rest := by
        simp [scanDeps, h1]
      rw [hg]
      rcases List.mem_cons.mp hd with rfl | hmem
      · exact absurd hids h1
      · exact ih d hmem hids htr

/-! ## Registry and bookkeeping lemmas -/

theorem getRule_eq_of_mem (registry : List ERule)
    (hreg : (regIds registry).Nodup) (r : ERule) (hr : r ∈ registry) :
    getRule registry r.id = some r := by
  induction registry with
  | nil => cases hr
  | cons a tl ih =>
    simp only [regIds, List.map_cons, List.nodup_cons] at hreg
    rcases List.mem_cons.mp hr with rfl | hmem
    · simp [getRule]
    · have hne : ¬ a.id = r.id := by
        intro he
        exact hreg.1 (he ▸ List.mem_map_of_mem ERule.id hmem)
      have hstep : getRule (a :: tl) r.id = getRule tl r.id := by
        simp only [getRule]
        rw [List.find?_cons_of_neg _ (by simp [hne])]
      rw [hstep]
      exact ih hreg.2 hmem

theorem getRule_mem (registry : List ERule) (rid : String) (r : ERule)
    (h : getRule registry rid = some r) : r ∈ registry ∧ r.id = rid :=
  ⟨List.mem_of_find?_eq_some h, by simpa using List.find?_some h⟩

theorem getRule_none_iff (registry : List ERule) (rid : String) :
    getRule registry rid = none ↔ rid ∉ regIds registry := by
  rw [getRule, List.find?_eq_none]
  simp [regIds]

theorem getRule_isSome_of_mem (registry : List ERule) (rid : String)
    (h : rid ∈ regIds registry) : ∃ r, getRule registry rid = some r := by
  cases hg : getRule registry rid with
  | none => exact absurd ((getRule_none_iff registry rid).mp hg) (by simp [h])
  | some r => exact ⟨r, rfl⟩

/-- Reachability from an empty target list is impossible. -/
theorem EReach_nil (registry : List ERule) (accept : ERule → Bool) (x : String)
    (h : EReach registry accept [] x) : False := by
  induction h with
  | tgt r hr _ => cases hr
  | dep _ _ _ _ _ _ ih => exact ih

theorem engProcess_ruleIds (proc : String → σ → σ × Bool) (r : ERule)
    (st : EngState σ) : (engProcess proc r st).1.ruleIds = r.id :: st.ruleIds := by
  by_cases h : r.deps = [] <;> simp [engProcess, processRuleCb, h]

/-- Exactly the accepted targets are taken into scope by the seed phase. -/
theorem seedPhase_ids (accept : ERule → Bool) (proc : String → σ → σ × Bool) :
    ∀ (rules' : List ERule) (st : EngState σ) (x : String),
      x ∈ (seedPhase accept proc rules' st).ruleIds ↔
        ((∃ r ∈ rules', accept r = true ∧ r.id = x) ∨ x ∈ st.ruleIds) := by
  intro rules'
  induction rules' with
  | nil => intro st x; simp [seedPhase]
  | cons r rs ih =>
    intro st x
    rw [seedPhase, ih]
    by_cases ha : accept r = true
    · have hso : (seedOne accept proc r st).ruleIds = r.id :: st.ruleIds := by
        cases hpr : (engProcess proc r st).2 <;>
          simp [seedOne, ha, hpr, engProcess_ruleIds]
      rw [hso]
      constructor
      · rintro (⟨w, hw, hacc, hid⟩ | h)
        · exact Or.inl ⟨w, List.mem_cons_of_mem r hw, hacc, hid⟩
        · rcases List.mem_cons.mp h with rfl | h2
          · exact Or.inl ⟨r, List.mem_cons_self r rs, ha, rfl⟩
          · exact Or.inr h2
      · rintro (⟨w, hw, hacc, hid⟩ | h)
        · rcases List.mem_cons.mp hw with rfl | h2
          · exact Or.inr (by rw [← hid]; exact List.mem_cons_self w.id st.ruleIds)
          · exact Or.inl ⟨w, h2, hacc, hid⟩
        · exact Or.inr (List.mem_cons_of_mem r.id h)
    · have ha' : accept r = false := by revert ha; cases accept r <;> simp
      have hso : seedOne accept proc r st = st := by simp [seedOne, ha']
      rw [hso]
      constructor
      · rintro (⟨w, hw, hacc, hid⟩ | h)
        · exact Or.inl ⟨w, List.mem_cons_of_mem r hw, hacc, hid⟩
        · exact Or.inr h
      · rintro (⟨w, hw, hacc, hid⟩ | h)
        · rcases List.mem_cons.mp hw with rfl | h2
          · rw [ha'] at hacc; cases hacc
          · exact Or.inl ⟨w, h2, hacc, hid⟩
        · exact Or.inr h

theorem sum_filter_mono (w : ERule → Nat) (p q : ERule → Bool)
    (himp : ∀ y, q y = true → p y = true) :
    ∀ l : List ERule, ((l.filter q).map w).sum ≤ ((l.filter p).map w).sum := by
  intro l
  induction l with
  | nil => simp
  | cons a tl ih =>
    by_cases hq : q a = true
    · simp [List.filter_cons, hq, himp a hq]
      omega
    · have hq' : q a = false := by revert hq; cases q a <;> simp
      simp only [List.filter_cons, hq', Bool.false_eq_true, if_false]
      cases hp : p a <;> simp
      · exact ih
      · exact le_trans ih (by omega)

theorem sum_filter_drop (w : ERule → Nat) (p q : ERule → Bool)
    (himp : ∀ y, q y = true → p y = true) :
    ∀ (l : List ERule) (r : ERule), r ∈ l → p r = true → q r = false →
      ((l.filter q).map w).sum + w r ≤ ((l.filter p).map w).sum := by
  intro l
  induction l with
  | nil => intro r hr _ _; cases hr
  | cons a tl ih =>
    intro r hr hpr hqr
    rcases List.mem_cons.mp hr with rfl | hmem
    · simp [List.filter_cons, hpr, hqr]
      have := sum_filter_mono w p q himp tl
      omega
    · by_cases hq : q a = true
      · simp [List.filter_cons, hq, himp a hq]
        have := ih r hmem hpr hqr
        omega
      · have hq' : q a = false := by revert hq; cases q a <;> simp
        simp only [List.filter_cons, hq', Bool.false_eq_true, if_false]
        cases hp : p a <;> simp
        · exact ih r hmem hpr hqr
        · have := ih r hmem hpr hqr
          omega

theorem engProcess_allDeps (proc : String → σ → σ × Bool) (r : ERule)
    (st : EngState σ) :
    (engProcess proc r st).1.allDependencies =
      (if r.deps = [] then st.allDependencies
       else st.allDependencies ++
         r.deps.filter (fun d => d ∉ r.id :: st.ruleIds)) := by
  by_cases h : r.deps = [] <;> simp [engProcess, processRuleCb, h]

theorem engProcess_trace (proc : String → σ → σ × Bool) (r : ERule)
    (st : EngState σ) :
    (engProcess proc r st).1.trace =
      (if r.deps = [] then st.trace ++ [r.id] else st.trace) := by
  by_cases h : r.deps = [] <;> simp [engProcess, processRuleCb, h]

theorem engProcess_queue (proc : String → σ → σ × Bool) (r : ERule)
    (st : EngState σ) :
    (engProcess proc r st).1.queue =
      (if r.deps = [] then st.queue else st.queue ++ [r.id]) := by
  by_cases h : r.deps = [] <;> simp [engProcess, processRuleCb, h]

theorem engProcess_depsMap (proc : String → σ → σ × Bool) (r : ERule)
    (st : EngState σ) :
    (engProcess proc r st).1.depsMap =
      (if r.deps = [] then st.depsMap else (r.id, r.deps) :: st.depsMap) := by
  by_cases h : r.deps = [] <;> simp [engProcess, processRuleCb, h]

theorem engProcess_failed (proc : String → σ → σ × Bool) (r : ERule)
    (st : EngState σ) (x : String)
    (h : x ∈ (engProcess proc r st).1.failed) : x = r.id ∨ x ∈ st.failed := by
  by_cases hd : r.deps = []
  · rcases hpr : proc r.id st.user with ⟨w', ok⟩
    cases ok <;> simp [engProcess, processRuleCb, hd, hpr] at h <;>
      tauto
  · simp [engProcess, hd] at h
    exact Or.inr h

/-! ## `exec_check` / `exec_fix` lemmas -/

theorem execCheck_fixExc (rd : RuleDef ω) (st : RuleState) (w : ω) (force : Bool) :
    (execCheck rd st w force).st.fixExc = st.fixExc := by
  by_cases hg : (force = false ∧ st.failedDependency.isSome = true)
  · simp [execCheck, hg]
  · cases hc : rd.checkFn with
    | none =>
      by_cases hf : rd.fixFn.isNone <;> simp [execCheck, hg, hc, hf]
    | some f =>
      rcases hfw : f w with ⟨w', cr⟩
      cases cr <;> simp [execCheck, hg, hc, hfw]

theorem execCheck_fixExecuted (rd : RuleDef ω) (st : RuleState) (w : ω) (force : Bool) :
    (execCheck rd st w force).st.fixExecuted = st.fixExecuted := by
  by_cases hg : (force = false ∧ st.failedDependency.isSome = true)
  · simp [execCheck, hg]
  · cases hc : rd.checkFn with
    | none =>
      by_cases hf : rd.fixFn.isNone <;> simp [execCheck, hg, hc, hf]
    | some f =>
      rcases hfw : f w with ⟨w', cr⟩
      cases cr <;> simp [execCheck, hg, hc, hfw]

theorem execCheck_failedDep (rd : RuleDef ω) (st : RuleState) (w : ω) (force : Bool) :
    (execCheck rd st w force).st.failedDependency = st.failedDependency := by
  by_cases hg : (force = false ∧ st.failedDependency.isSome = true)
  · simp [execCheck, hg]
  · cases hc : rd.checkFn with
    | none =>
      by_cases hf : rd.fixFn.isNone <;> simp [execCheck, hg, hc, hf]
    | some f =>
      rcases hfw : f w with ⟨w', cr⟩
      cases cr <;> simp [execCheck, hg, hc, hfw]

/-- After any `exec_check`, `valid` is `None` exactly when this very call was
skipped by the failed-dependency guard: every performed call stores a
non-`None` validity (a raising check stores `False`). -/
theorem execCheck_valid_none_iff (rd : RuleDef ω) (st : RuleState) (w : ω) (force : Bool) :
    ((execCheck rd st w force).st.valid = Option.none ↔
      (execCheck rd st w force).performed = false) := by
  by_cases hg : (force = false ∧ st.failedDependency.isSome = true)
  · simp [execCheck, hg]
  · cases hc : rd.checkFn with
    | none =>
      by_cases hf : rd.fixFn.isNone <;> simp [execCheck, hg, hc, hf]
    | some f =>
      rcases hfw : f w with ⟨w', cr⟩
      cases cr <;> simp [execCheck, hg, hc, hfw]

/-- A check runtime error present after `exec_check` can only come from this
very call's check callable raising: the stored exception is cleared on
entry. -/
theorem execCheck_exc_invoked (rd : RuleDef ω) (st : RuleState) (w : ω) (force : Bool) :
    (execCheck rd st w force).st.checkExc ≠ Option.none →
      (execCheck rd st w force).invoked = true ∧
      (execCheck rd st w force).raised = true := by
  by_cases hg : (force = false ∧ st.failedDependency.isSome = true)
  · simp [execCheck, hg]
  · cases hc : rd.checkFn with
    | none =>
      by_cases hf : rd.fixFn.isNone <;> simp [execCheck, hg, hc, hf]
    | some f =>
      rcases hfw : f w with ⟨w', cr⟩
      cases cr <;> simp [execCheck, hg, hc, hfw]

theorem execFix_checkAttempted (rd : RuleDef ω) (st : RuleState) (w : ω)
    (pre force : Bool) : (execFix rd st w pre force).checkAttempted = pre := by
  simp only [execFix]
  generalize hgc : execCheck rd { st with fixExc := Option.none } w false = c
  cases pre
  · by_cases g1 : (rd.checkFn.isSome = true ∧ st.valid = some true)
    · simp [g1]
    · cases hf : rd.fixFn with
      | none => simp [g1, hf]
      | some f =>
        by_cases g2 : (force = false ∧ st.failedDependency.isSome = true)
        · simp [g1, hf, g2]
        · rcases hfw : f w st.errorItems with ⟨w', fr⟩
          cases fr <;> simp [g1, hf, g2, hfw]
  · by_cases g1 : (rd.checkFn.isSome = true ∧ c.st.valid = some true)
    · simp [g1]
    · cases hf : rd.fixFn with
      | none => simp [g1, hf]
      | some f =>
        by_cases g2 : (force = false ∧ c.st.failedDependency.isSome = true)
        · simp [g1, hf, g2]
        · rcases hfw : f c.w c.st.errorItems with ⟨w', fr⟩
          cases fr <;> simp [g1, hf, g2, hfw]

theorem execFix_checkPerformed (rd : RuleDef ω) (st : RuleState) (w : ω) (force : Bool) :
    (execFix rd st w true force).checkPerformed =
      (execCheck rd { st with fixExc := Option.none } w false).performed := by
  simp only [execFix]
  generalize hgc : execCheck rd { st with fixExc := Option.none } w false = c
  by_cases g1 : (rd.checkFn.isSome = true ∧ c.st.valid = some true)
  · simp [g1]
  · cases hf : rd.fixFn with
    | none => simp [g1, hf]
    | some f =>
      by_cases g2 : (force = false ∧ c.st.failedDependency.isSome = true)
      · simp [g1, hf, g2]
      · rcases hfw : f c.w c.st.errorItems with ⟨w', fr⟩
        cases fr <;> simp [g1, hf, g2, hfw]

theorem execFix_valid_pre_true (rd : RuleDef ω) (st : RuleState) (w : ω) (force : Bool) :
    (execFix rd st w true force).st.valid =
      (execCheck rd { st with fixExc := Option.none } w false).st.valid := by
  simp only [execFix]
  generalize hgc : execCheck rd { st with fixExc := Option.none } w false = c
  by_cases g1 : (rd.checkFn.isSome = true ∧ c.st.valid = some true)
  · simp [g1]
  · cases hf : rd.fixFn with
    | none => simp [g1, hf]
    | some f =>
      by_cases g2 : (force = false ∧ c.st.failedDependency.isSome = true)
      · simp [g1, hf, g2]
      · rcases hfw : f c.w c.st.errorItems with ⟨w', fr⟩
        cases fr <;> simp [g1, hf, g2, hfw]

theorem execFix_valid_pre_false (rd : RuleDef ω) (st : RuleState) (w : ω) (force : Bool) :
    (execFix rd st w false force).st.valid = st.valid := by
  simp only [execFix]
  generalize hgc : execCheck rd { st with fixExc := Option.none } w false = c
  by_cases g1 : (rd.checkFn.isSome = true ∧ st.valid = some true)
  · simp [g1]
  · cases hf : rd.fixFn with
    | none => simp [g1, hf]
    | some f =>
      by_cases g2 : (force = false ∧ st.failedDependency.isSome = true)
      · simp [g1, hf, g2]
      · rcases hfw : f w st.errorItems with ⟨w', fr⟩
        cases fr <;> simp [g1, hf, g2, hfw]

/-- An `exec_fix` whose fix callable raised returns Python `False`. -/
theorem execFix_val_of_raised (rd : RuleDef ω) (st : RuleState) (w : ω)
    (pre force : Bool) : (execFix rd st w pre force).raised = true →
      (execFix rd st w pre force).val = PyVal.bool false := by
  simp only [execFix]
  generalize hgc : execCheck rd { st with fixExc := Option.none } w false = c
  cases pre
  · by_cases g1 : (rd.checkFn.isSome = true ∧ st.valid = some true)
    · simp [g1]
    · cases hf : rd.fixFn with
      | none => simp [g1, hf]
      | some f =>
        by_cases g2 : (force = false ∧ st.failedDependency.isSome = true)
        · simp [g1, hf, g2]
        · rcases hfw : f w st.errorItems with ⟨w', fr⟩
          cases fr <;> simp [g1, hf, g2, hfw]
  · by_cases g1 : (rd.checkFn.isSome = true ∧ c.st.valid = some true)
    · simp [g1]
    · cases hf : rd.fixFn with
      | none => simp [g1, hf]
      | some f =>
        by_cases g2 : (force = false ∧ c.st.failedDependency.isSome = true)
        · simp [g1, hf, g2]
        · rcases hfw : f c.w c.st.errorItems with ⟨w', fr⟩
          cases fr <;> simp [g1, hf, g2, hfw]

/-- The state the fix body of `exec_fix` starts from has no stored fix
runtime exception: the entry reset cleared it and the pre-validation check
does not touch it. -/
theorem execFix_st1_fixExc (rd : RuleDef ω) (st : RuleState) (w : ω) (pre : Bool) :
    (if pre then (execCheck rd { st with fixExc := Option.none } w false).st
      else { st with fixExc := Option.none }).fixExc = Option.none := by
  cases pre
  · simp
  · simpa using execCheck_fixExc rd { st with fixExc := Option.none } w false

/-- A fix runtime error present after `exec_fix` can only come from this
very call's fix callable raising: the stored exception is cleared on entry,
and the pre-validation check never touches it. -/
theorem execFix_exc_invoked (rd : RuleDef ω) (st : RuleState) (w : ω)
    (pre force : Bool) : (execFix rd st w pre force).st.fixExc ≠ Option.none →
      (execFix rd st w pre force).invoked = true ∧
      (execFix rd st w pre force).raised = true := by
  simp only [execFix]
  generalize hgc : execCheck rd { st with fixExc := Option.none } w false = c
  have hcf : c.st.fixExc = Option.none := by
    rw [← hgc]
    simpa using execCheck_fixExc rd { st with fixExc := Option.none } w false
  cases pre
  · by_cases g1 : (rd.checkFn.isSome = true ∧ st.valid = some true)
    · simp [g1]
    · cases hf : rd.fixFn with
      | none => simp [g1, hf]
      | some f =>
        by_cases g2 : (force = false ∧ st.failedDependency.isSome = true)
        · simp [g1, hf, g2]
        · rcases hfw : f w st.errorItems with ⟨w', fr⟩
          cases fr <;> simp [g1, hf, g2, hfw]
  · by_cases g1 : (rd.checkFn.isSome = true ∧ c.st.valid = some true)
    · simp [g1, hcf]
    · cases hf : rd.fixFn with
      | none => simp [g1, hf, hcf]
      | some f =>
        by_cases g2 : (force = false ∧ c.st.failedDependency.isSome = true)
        · simp [g1, hf, g2, hcf]
        · rcases hfw : f c.w c.st.errorItems with ⟨w', fr⟩
          cases fr <;> simp [g1, hf, g2, hfw, hcf]

/-- The fix callable's invocation, when it returns normally, always sets
`fixExecuted`. -/
theorem execFix_fixExecuted_of_ret (rd : RuleDef ω) (st : RuleState) (w : ω)
    (pre force : Bool) : (execFix rd st w pre force).invoked = true →
      (execFix rd st w pre force).raised = false →
      (execFix rd st w pre force).st.fixExecuted = true := by
  simp only [execFix]
  generalize hgc : execCheck rd { st with fixExc := Option.none } w false = c
  cases pre
  · by_cases g1 : (rd.checkFn.isSome = true ∧ st.valid = some true)
    · simp [g1]
    · cases hf : rd.fixFn with
      | none => simp [g1, hf]
      | some f =>
        by_cases g2 : (force = false ∧ st.failedDependency.isSome = true)
        · simp [g1, hf, g2]
        · rcases hfw : f w st.errorItems with ⟨w', fr⟩
          cases fr <;> simp [g1, hf, g2, hfw]
  · by_cases g1 : (rd.checkFn.isSome = true ∧ c.st.valid = some true)
    · simp [g1]
    · cases hf : rd.fixFn with
      | none => simp [g1, hf]
      | some f =>
        by_cases g2 : (force = false ∧ c.st.failedDependency.isSome = true)
        · simp [g1, hf, g2]
        · rcases hfw : f c.w c.st.errorItems with ⟨w', fr⟩
          cases fr <;> simp [g1, hf, g2, hfw]

/-- When the fix callable raises, `fixExecuted` is left unchanged. -/
theorem execFix_fixExecuted_of_raise (rd : RuleDef ω) (st : RuleState) (w : ω)
    (pre force : Bool) : (execFix rd st w pre force).raised = true →
      (execFix rd st w pre force).st.fixExecuted = st.fixExecuted := by
  simp only [execFix]
  generalize hgc : execCheck rd { st with fixExc := Option.none } w false = c
  have hcx : c.st.fixExecuted = st.fixExecuted := by
    rw [← hgc]
    simpa using execCheck_fixExecuted rd { st with fixExc := Option.none } w false
  cases pre
  · by_cases g1 : (rd.checkFn.isSome = true ∧ st.valid = some true)
    · simp [g1]
    · cases hf : rd.fixFn with
      | none => simp [g1, hf]
      | some f =>
        by_cases g2 : (force = false ∧ st.failedDependency.isSome = true)
        · simp [g1, hf, g2]
        · rcases hfw : f w st.errorItems with ⟨w', fr⟩
          cases fr <;> simp [g1, hf, g2, hfw]
  · by_cases g1 : (rd.checkFn.isSome = true ∧ c.st.valid = some true)
    · simp [g1, hcx]
    · cases hf : rd.fixFn with
      | none => simp [g1, hf, hcx]
      | some f =>
        by_cases g2 : (force = false ∧ c.st.failedDependency.isSome = true)
        · simp [g1, hf, g2, hcx]
        · rcases hfw : f c.w c.st.errorItems with ⟨w', fr⟩
          cases fr <;> simp [g1, hf, g2, hfw, hcx]

/-- The valid-field/last-check-performed invariant, threaded through any
sequence of rule operations. -/
theorem runOps_valid_flag (rd : RuleDef ω) :
    ∀ (ops : List ROp) (p : RuleState × ω × Bool),
      (p.1.valid = Option.none ↔ p.2.2 = false) →
      ((ops.foldl (applyOp rd) p).1.valid = Option.none ↔
        (ops.foldl (applyOp rd) p).2.2 = false) := by
  intro ops
  induction ops with
  | nil => intro p h; simpa using h
  | cons op rest ih =>
    intro p h
    rw [List.foldl_cons]
    refine ih _ ?_
    obtain ⟨st, w, last⟩ := p
    cases op with
    | check force =>
      simpa [applyOp] using execCheck_valid_none_iff rd st w force
    | fix pre force =>
      cases pre with
      | false =>
        have h1 := execFix_valid_pre_false rd st w force
        have h2 := execFix_checkAttempted rd st w false force
        simpa [applyOp, h1, h2] using h
      | true =>
        have h1 := execFix_valid_pre_true rd st w force
        have h2 := execFix_checkAttempted rd st w true force
        have h3 := execFix_checkPerformed rd st w force
        simpa [applyOp, h1, h2, h3] using
          execCheck_valid_none_iff rd { st with fixExc := Option.none } w false
    | setFailedDep dd => simpa [applyOp] using h
    | setManualChecked b => simpa [applyOp] using h

/-! ## Claims -/

/-- C3: for rules A, B, C where B depends on A and C depends on B, and A's
fix fails, `resolve_rules([A, B, C])` processes A first, sets B's failed
dependency to A, sets C's failed dependency to B (the propagated chain), and
neither B's nor C's fix callable is ever invoked: the invocation counters
finish at (1, 0, 0). -/
theorem c3_failure_blocks_downstream :
    c3Run.isDone = true
    ∧ c3Run.traceOf = ["A", "B", "C"]
    ∧ (getRS c3Run.state.user "B").failedDependency = some "A"
    ∧ (getRS c3Run.state.user "C").failedDependency = some "B"
    ∧ c3Run.state.user.world = (1, 0, 0) := by decide

/-- C4 (amended): after an `exec_fix` in which the fix callable was invoked
and returned normally — with any value, success or failure — `fixExecuted`
is true; but when the fix callable raises, `fixExecuted` is left unchanged
(so it stays false on a first fix attempt that raises). -/
theorem c4_fix_executed_iff_returned (ω : Type) (rd : RuleDef ω) (st : RuleState)
    (w : ω) (pre force : Bool) :
    ((execFix rd st w pre force).invoked = true →
      (execFix rd st w pre force).raised = false →
      (execFix rd st w pre force).st.fixExecuted = true)
    ∧ ((execFix rd st w pre force).raised = true →
      (execFix rd st w pre force).st.fixExecuted = st.fixExecuted) :=
  ⟨execFix_fixExecuted_of_ret rd st w pre force,
    execFix_fixExecuted_of_raise rd st w pre force⟩

/-- Witness for C4: a fix that returns sets the flag; a fix that raises
leaves a fresh rule's flag false. -/
theorem c4_witness :
    ((execFix ruleFixTrue initRuleState 0 false false).st.fixExecuted = true)
    ∧ ((execFix ruleRaisingFix initRuleState 0 false false).st.fixExecuted =
        initRuleState.fixExecuted) :=
  ⟨(c4_fix_executed_iff_returned Nat ruleFixTrue initRuleState 0 false false).1
      (by decide) (by decide),
    (c4_fix_executed_iff_returned Nat ruleRaisingFix initRuleState 0 false false).2
      (by decide)⟩

/-- Counterexample to C4 as stated: the fix callable of `ruleRaisingFix` is
invoked (the world counter reaches 1) and raises, yet `fixExecuted` is left
false — the claim demands it be true when the invocation raises. -/
theorem c4_counterexample :
    (execFix ruleRaisingFix initRuleState 0 false false).invoked = true
    ∧ (execFix ruleRaisingFix initRuleState 0 false false).raised = true
    ∧ (execFix ruleRaisingFix initRuleState 0 false false).w = 1
    ∧ (execFix ruleRaisingFix initRuleState 0 false false).st.fixExecuted = false := by
  decide

/-- C7 (amended): `resolve_rule` reports success exactly when the value
returned by `exec_fix` is identically `True` or identically `None` (Python
`result is None or result is True`; a merely truthy value such as `1` counts
as failure).  A raising fix callable is caught inside `exec_fix` (the call
returns `False`, hence failure), and the batch goes on: in the concrete
two-rule batch, F's fix raises and G is still processed, its fix invoked
exactly once. -/
theorem c7_resolve_rule_success (ω : Type) (mgr : Manager ω) (pre : Bool)
    (rid : String) (s : MgrState ω) :
    ((resolveRuleCall mgr pre rid s).2 = true ↔
      (∃ rd, findDef mgr rid = some rd ∧
        ((execFix rd (getRS s rid) s.world pre false).val = PyVal.none ∨
         (execFix rd (getRS s rid) s.world pre false).val = PyVal.bool true)))
    ∧ (∀ (rd : RuleDef ω) (st : RuleState) (w : ω) (p f : Bool),
        (execFix rd st w p f).raised = true →
          (execFix rd st w p f).val = PyVal.bool false)
    ∧ (c7Run.isDone = true ∧ c7Run.traceOf = ["F", "G"]
        ∧ c7Run.state.user.world = (1, 1) ∧ c7Run.state.failed = ["F"]) := by
  refine ⟨?_, ?_, by decide⟩
  · cases hfd : findDef mgr rid with
    | none => simp [resolveRuleCall, hfd]
    | some rd0 =>
      simp [resolveRuleCall, hfd]
  · intro rd st w p f
    exact execFix_val_of_raised rd st w p f

/-- Witness for C7: the raising-fix conjunct applied at a concrete rule. -/
theorem c7_witness :
    (execFix ruleRaisingFix initRuleState 0 false false).raised = true
    ∧ (execFix ruleRaisingFix initRuleState 0 false false).val = PyVal.bool false :=
  ⟨by decide,
    (c7_resolve_rule_success Nat ⟨[]⟩ false "R" { world := 0 }).2.1
      ruleRaisingFix initRuleState 0 false false (by decide)⟩

/-- Counterexample to C7 as stated: a fix returning the truthy value `1`
makes `exec_fix` return `1`, yet `resolve_rule` reports failure, because the
source tests identity with `True`/`None`, not truthiness. -/
theorem c7_counterexample :
    pyTruthy (execFix c7R initRuleState () true false).val = true
    ∧ (resolveRuleCall c7Mgr true "R" { world := () }).2 = false := by decide

/-- C8 (amended): a rule's `valid` is `None` exactly when no check attempt
has been performed since construction, or the most recent check attempt
(including the pre-validation check inside `exec_fix`) was skipped by the
failed-dependency guard.  In particular a check callable that raises leaves
`valid = False`, not `None`. -/
theorem c8_valid_none_iff_last_check_skipped (ω : Type) (rd : RuleDef ω)
    (w0 : ω) (ops : List ROp) :
    ((runOps rd w0 ops).1.valid = Option.none ↔ (runOps rd w0 ops).2.2 = false) := by
  simpa [runOps] using
    runOps_valid_flag rd ops (initRuleState, w0, false) (by simp [initRuleState])

/-- Counterexample to C8 as stated: a single `exec_check` whose check
callable raises (so the check never successfully completed) leaves
`valid = False`, not `None` — the claimed equivalence fails. -/
theorem c8_counterexample :
    (runOps ruleRaisingCheck 0 [ROp.check false]).1.valid = some false
    ∧ (execCheck ruleRaisingCheck initRuleState 0 false).raised = true
    ∧ (execCheck ruleRaisingCheck initRuleState 0 false).st.valid = some false := by
  decide

/-- C9: `get_type_for_rule` assigns every rule the type `Required` or
`Optional` (never `None`, `Auto`, `Manual` or `Active`), `Required` exactly
when the rule's `required` flag is set; consequently the default acceptance
predicate of a `Manual`, `Auto` or `None` rule type accepts no rule. -/
theorem c9_rule_type_required_or_optional (ω : Type) (rd : RuleDef ω) :
    ((getTypeForRule rd).id = RULE_TYPE_REQUIRED ∨
      (getTypeForRule rd).id = RULE_TYPE_OPTIONAL)
    ∧ ((getTypeForRule rd).id = RULE_TYPE_REQUIRED ↔ rd.required = true)
    ∧ isRuleAccepted ⟨RULE_TYPE_MANUAL⟩ rd = false
    ∧ isRuleAccepted ⟨RULE_TYPE_AUTO⟩ rd = false
    ∧ isRuleAccepted ⟨RULE_TYPE_NONE⟩ rd = false := by
  by_cases h : rd.required = true
  · simp [getTypeForRule, isRuleAccepted, h, RULE_TYPE_REQUIRED, RULE_TYPE_OPTIONAL,
      RULE_TYPE_ACTIVE, RULE_TYPE_MANUAL, RULE_TYPE_AUTO, RULE_TYPE_NONE]
  · have h' : rd.required = false := by revert h; cases rd.required <;> simp
    simp [getTypeForRule, isRuleAccepted, h', RULE_TYPE_REQUIRED, RULE_TYPE_OPTIONAL,
      RULE_TYPE_ACTIVE, RULE_TYPE_MANUAL, RULE_TYPE_AUTO, RULE_TYPE_NONE]

/-- C10: `exec_check` clears the stored check runtime error on entry and
`exec_fix` clears the stored fix runtime error on entry, whatever the prior
state: an error present after the call can only have been recorded by this
very call's callable raising, so an earlier recorded error never survives a
later invocation (in particular not one that skips the callable). -/
theorem c10_runtime_errors_cleared (ω : Type) (rd : RuleDef ω) (st : RuleState)
    (w : ω) (pre force : Bool) :
    ((execCheck rd st w force).st.checkExc ≠ Option.none →
      (execCheck rd st w force).invoked = true ∧
      (execCheck rd st w force).raised = true)
    ∧ ((execFix rd st w pre force).st.fixExc ≠ Option.none →
      (execFix rd st w pre force).invoked = true ∧
      (execFix rd st w pre force).raised = true) :=
  ⟨execCheck_exc_invoked rd st w force, execFix_exc_invoked rd st w pre force⟩

/-- The retry loop performs at most as many resolve attempts as it has fuel
(`max_retry - count`). -/
theorem retryLoop_le (ω : Type) (mgr : Manager ω) :
    ∀ (fuel : Nat) (prev : List String) (s : MgrState ω) (b : Bool)
      (s' : MgrState ω) (n : Nat),
      retryLoop mgr fuel prev s = .ok (b, s', n) → n ≤ fuel := by
  intro fuel
  induction fuel with
  | zero =>
    intro prev s b s' n h
    simp [retryLoop] at h
    omega
  | succ f ih =>
    intro prev s b s' n h
    rw [retryLoop] at h
    by_cases hs : sameSet prev s.errors = true
    · simp [hs] at h
      omega
    · simp [hs] at h
      rcases hr : resolveRules mgr (errTargets mgr s) true (some false) true s
          with st | st | st <;> rw [hr] at h
      on_goal 3 => simp at h
      all_goals (
        simp only [EngResult.state] at h
        rcases hv : validateM mgr st.user with e | p <;> rw [hv] at h
        · simp at h
        · obtain ⟨bb, s2⟩ := p
          cases bb
          · simp only [] at h
            rcases hrl : retryLoop mgr f s.errors s2 with e | q <;> rw [hrl] at h
            · simp at h
            · obtain ⟨b3, s3, n3⟩ := q
              simp at h
              have hb := ih s.errors s2 b3 s3 n3 hrl
              omega
          · simp at h
            omega)

/-- The drain loop on an empty queue returns immediately. -/
theorem drain_nil (sfd : String → Option String → σ → σ)
    (proc : String → σ → σ × Bool) (b : Nat) (st : EngState σ)
    (h : st.queue = []) : drain sfd proc b st = .done st := by
  obtain ⟨ids, tr, fl, ad, dm, qu, qc, u⟩ := st
  simp only at h
  subst h
  cases b <;> rfl

/-- The drain loop with an exhausted budget and a non-empty queue raises the
cycle error, leaving the state untouched. -/
theorem drain_zero (sfd : String → Option String → σ → σ)
    (proc : String → σ → σ × Bool) (st : EngState σ) (q0 : String)
    (qrest : List String) (h : st.queue = q0 :: qrest) :
    drain sfd proc 0 st = .cycle st := by
  obtain ⟨ids, tr, fl, ad, dm, qu, qc, u⟩ := st
  simp only at h
  subst h
  rfl

/-- One iteration of the drain loop on a non-empty queue. -/
theorem drain_succ (sfd : String → Option String → σ → σ)
    (proc : String → σ → σ × Bool) (b : Nat) (st : EngState σ) (q0 : String)
    (qrest : List String) (h : st.queue = q0 :: qrest) :
    drain sfd proc (b + 1) st =
      (let rem := (lookupA st.depsMap q0).getD []
       let sc := scanDeps st.ruleIds st.trace st.failed rem
       let st2 : EngState σ :=
         { st with queue := qrest, depsMap := updateA st.depsMap q0 sc.1 }
       if sc.2.1 = true ∧ sc.2.2 = none then
         drain sfd proc b { st2 with queue := qrest ++ [q0] }
       else
         drain sfd proc b
           (processRuleCb proc q0 { st2 with user := sfd q0 sc.2.2 st2.user })) := by
  obtain ⟨ids, tr, fl, ad, dm, qu, qc, u⟩ := st
  simp only at h
  subst h
  rfl

/-! ## The phase invariant through the seed and discovery phases -/

theorem nodup_concat (a : String) (l : List String) (h1 : l.Nodup)
    (h2 : a ∉ l) : (l ++ [a]).Nodup := by
  rw [List.nodup_append]
  exact ⟨h1, List.nodup_singleton a,
    fun x hx hx' => h2 ((List.mem_singleton.mp hx') ▸ hx)⟩

theorem engProcess_failed_eq (proc : String → σ → σ × Bool) (r : ERule)
    (st : EngState σ) :
    (engProcess proc r st).1.failed =
      (if r.deps = [] then
        (if (proc r.id st.user).2 = true then st.failed else r.id :: st.failed)
       else st.failed) := by
  by_cases h : r.deps = [] <;>
    rcases hpr : proc r.id st.user with ⟨u, ok⟩ <;>
    cases ok <;> simp [engProcess, processRuleCb, h, hpr]

/-- `PhaseInv` ignores the queue counter. -/
theorem phaseInv_qc (registry : List ERule) (accept : ERule → Bool)
    (targets : List ERule) (st : EngState σ) (n : Nat)
    (h : PhaseInv registry accept targets st) :
    PhaseInv registry accept targets { st with queueCount := n } := by
  obtain ⟨h1, h2, h3, h4, h5, h6, h7, h8, h9⟩ := h
  exact ⟨h1, h2, h3, h4, h5, h6, h7, h8, h9⟩

/-- `coveredBy` ignores the queue counter. -/
theorem coveredBy_qc (registry : List ERule) (st : EngState σ) (n : Nat)
    (h : coveredBy registry st) :
    coveredBy registry { st with queueCount := n } := by
  intro x hx d hd
  exact h x hx d hd

/-- Popping the head of the pending-dependency set preserves `PhaseInv`. -/
theorem phaseInv_pop (registry : List ERule) (accept : ERule → Bool)
    (targets : List ERule) (st : EngState σ) (d : String) (rest : List String)
    (had : st.allDependencies = d :: rest)
    (h : PhaseInv registry accept targets st) :
    PhaseInv registry accept targets { st with allDependencies := rest } := by
  obtain ⟨h1, h2, h3, h4, h5, h6, h7, h8, h9⟩ := h
  exact ⟨h1, h2, h3, h4, h5, h6, h7, h8,
    fun x hx => h9 x (by rw [had]; exact List.mem_cons_of_mem d hx)⟩

/-- `__process` preserves the phase invariant when applied to a fresh rule of
the registry that is reachable from the accepted targets. -/
theorem engProcess_phaseInv (registry : List ERule) (accept : ERule → Bool)
    (targets : List ERule) (proc : String → σ → σ × Bool) (r : ERule)
    (st : EngState σ) (hreg : (regIds registry).Nodup) (hmem : r ∈ registry)
    (hfresh : r.id ∉ st.ruleIds)
    (hreach : EReach registry accept targets r.id)
    (hinv : PhaseInv registry accept targets st) :
    PhaseInv registry accept targets (engProcess proc r st).1 := by
  have hgr : getRule registry r.id = some r := getRule_eq_of_mem registry hreg r hmem
  have hdid : depsOfId registry r.id = r.deps := by simp [depsOfId, hgr]
  have hrr : r.id ∈ regIds registry := List.mem_map_of_mem ERule.id hmem
  have hnt : r.id ∉ st.trace := fun h => hfresh ((hinv.ids_iff r.id).mpr (Or.inl h))
  have hnq : r.id ∉ st.queue := fun h => hfresh ((hinv.ids_iff r.id).mpr (Or.inr h))
  by_cases hd : r.deps = []
  · refine ⟨?_, ?_, ?_, ?_, ?_, ?_, ?_, ?_, ?_⟩
    · rw [engProcess_trace, if_pos hd]
      exact nodup_concat r.id st.trace hinv.trace_nodup hnt
    · rw [engProcess_queue, if_pos hd]
      exact hinv.queue_nodup
    · intro q hqq
      rw [engProcess_queue, if_pos hd] at hqq
      rw [engProcess_trace, if_pos hd]
      intro hmem'
      rcases List.mem_append.mp hmem' with h | h
      · exact hinv.queue_fresh q hqq h
      · exact hnq (by rwa [List.mem_singleton.mp h] at hqq)
    · intro x
      rw [engProcess_ruleIds, engProcess_trace, engProcess_queue,
        if_pos hd, if_pos hd]
      constructor
      · intro hx
        rcases List.mem_cons.mp hx with rfl | hx'
        · exact Or.inl (List.mem_append.mpr (Or.inr (List.mem_singleton.mpr rfl)))
        · rcases (hinv.ids_iff x).mp hx' with h | h
          · exact Or.inl (List.mem_append.mpr (Or.inl h))
          · exact Or.inr h
      · intro hx
        rcases hx with h | h
        · rcases List.mem_append.mp h with h | h
          · exact List.mem_cons_of_mem _ ((hinv.ids_iff x).mpr (Or.inl h))
          · rw [List.mem_singleton.mp h]
            exact List.mem_cons_self _ _
        · exact List.mem_cons_of_mem _ ((hinv.ids_iff x).mpr (Or.inr h))
    · intro x hx
      rw [engProcess_failed_eq, if_pos hd] at hx
      rw [engProcess_trace, if_pos hd]
      cases hok : (proc r.id st.user).2 with
      | true =>
        rw [if_pos hok] at hx
        exact List.mem_append.mpr (Or.inl (hinv.failed_sub x hx))
      | false =>
        rw [if_neg (by rw [hok]; exact Bool.false_ne_true)] at hx
        rcases List.mem_cons.mp hx with rfl | hx'
        · exact List.mem_append.mpr (Or.inr (List.mem_singleton.mpr rfl))
        · exact List.mem_append.mpr (Or.inl (hinv.failed_sub x hx'))
    · intro q hqq
      rw [engProcess_queue, if_pos hd] at hqq
      rw [engProcess_depsMap, if_pos hd]
      exact hinv.rem_full q hqq
    · intro t ht
      rw [engProcess_trace, if_pos hd] at ht
      rcases List.mem_append.mp ht with h | h
      · exact hinv.trace_nodeps t h
      · rw [List.mem_singleton.mp h, hdid]
        exact hd
    · intro x hx
      rw [engProcess_ruleIds] at hx
      rcases List.mem_cons.mp hx with rfl | hx'
      · exact ⟨hreach, hrr⟩
      · exact hinv.reach_ids x hx'
    · intro dd hdd
      rw [engProcess_allDeps, if_pos hd] at hdd
      exact hinv.reach_deps dd hdd
  · refine ⟨?_, ?_, ?_, ?_, ?_, ?_, ?_, ?_, ?_⟩
    · rw [engProcess_trace, if_neg hd]
      exact hinv.trace_nodup
    · rw [engProcess_queue, if_neg hd]
      exact nodup_concat r.id st.queue hinv.queue_nodup hnq
    · intro q hqq
      rw [engProcess_queue, if_neg hd] at hqq
      rw [engProcess_trace, if_neg hd]
      rcases List.mem_append.mp hqq with h | h
      · exact hinv.queue_fresh q h
      · rw [List.mem_singleton.mp h]
        exact hnt
    · intro x
      rw [engProcess_ruleIds, engProcess_trace, engProcess_queue,
        if_neg hd, if_neg hd]
      constructor
      · intro hx
        rcases List.mem_cons.mp hx with rfl | hx'
        · exact Or.inr (List.mem_append.mpr (Or.inr (List.mem_singleton.mpr rfl)))
        · rcases (hinv.ids_iff x).mp hx' with h | h
          · exact Or.inl h
          · exact Or.inr (List.mem_append.mpr (Or.inl h))
      · intro hx
        rcases hx with h | h
        · exact List.mem_cons_of_mem _ ((hinv.ids_iff x).mpr (Or.inl h))
        · rcases List.mem_append.mp h with h | h
          · exact List.mem_cons_of_mem _ ((hinv.ids_iff x).mpr (Or.inr h))
          · rw [List.mem_singleton.mp h]
            exact List.mem_cons_self _ _
    · intro x hx
      rw [engProcess_failed_eq, if_neg hd] at hx
      rw [engProcess_trace, if_neg hd]
      exact hinv.failed_sub x hx
    · intro q hqq
      rw [engProcess_queue, if_neg hd] at hqq
      rw [engProcess_depsMap, if_neg hd]
      rcases List.mem_append.mp hqq with h | h
      · have hne : r.id ≠ q := fun he => hnq (he ▸ h)
        rw [lookupA, if_neg hne]
        exact hinv.rem_full q h
      · rw [List.mem_singleton.mp h]
        simp [lookupA, hdid]
    · intro t ht
      rw [engProcess_trace, if_neg hd] at ht
      exact hinv.trace_nodeps t ht
    · intro x hx
      rw [engProcess_ruleIds] at hx
      rcases List.mem_cons.mp hx with rfl | hx'
      · exact ⟨hreach, hrr⟩
      · exact hinv.reach_ids x hx'
    · intro dd hdd
      rw [engProcess_allDeps, if_neg hd] at hdd
      rcases List.mem_append.mp hdd with h | h
      · exact hinv.reach_deps dd h
      · exact EReach.dep r.id r dd hreach hgr (List.mem_of_mem_filter h)

/-- `__process` establishes dependency coverage: each declared dependency of
an in-scope rule is in scope, pending, or outside the registry (the freshly
processed rule itself being allowed as a previously missing dependency). -/
theorem engProcess_covered (registry : List ERule)
    (proc : String → σ → σ × Bool) (r : ERule) (st : EngState σ)
    (hreg : (regIds registry).Nodup) (hmem : r ∈ registry)
    (hcov : ∀ x ∈ st.ruleIds, ∀ d ∈ depsOfId registry x,
        d ∈ st.ruleIds ∨ d ∈ st.allDependencies ∨ d = r.id ∨
          d ∉ regIds registry) :
    coveredBy registry (engProcess proc r st).1 := by
  have hgr : getRule registry r.id = some r := getRule_eq_of_mem registry hreg r hmem
  have hdid : depsOfId registry r.id = r.deps := by simp [depsOfId, hgr]
  intro x hx d hd
  rw [engProcess_ruleIds] at hx
  rw [engProcess_ruleIds, engProcess_allDeps]
  rcases List.mem_cons.mp hx with rfl | hx'
  · rw [hdid] at hd
    by_cases hin : d ∈ r.id :: st.ruleIds
    · exact Or.inl hin
    · have hne : ¬ r.deps = [] := by
        intro h
        rw [h] at hd
        cases hd
      rw [if_neg hne]
      exact Or.inr (Or.inl (List.mem_append.mpr
        (Or.inr (List.mem_filter.mpr ⟨hd, by simpa using hin⟩))))
  · rcases hcov x hx' d hd with h | h | h | h
    · exact Or.inl (List.mem_cons_of_mem _ h)
    · refine Or.inr (Or.inl ?_)
      split
      · exact h
      · exact List.mem_append.mpr (Or.inl h)
    · rw [h]
      exact Or.inl (List.mem_cons_self _ _)
    · exact Or.inr (Or.inr h)

theorem seedOne_ruleIds (accept : ERule → Bool) (proc : String → σ → σ × Bool)
    (r : ERule) (st : EngState σ) :
    (seedOne accept proc r st).ruleIds =
      (if accept r = true then r.id :: st.ruleIds else st.ruleIds) := by
  cases ha : accept r <;> cases hpr : (engProcess proc r st).2 <;>
    simp [seedOne, ha, hpr, engProcess_ruleIds]

/-- The phase invariant holds in the engine's initial state. -/
theorem phaseInv_init (registry : List ERule) (accept : ERule → Bool)
    (targets : List ERule) (s0 : σ) :
    PhaseInv registry accept targets ({ user := s0 } : EngState σ) := by
  constructor <;> simp

theorem coveredBy_init (registry : List ERule) (s0 : σ) :
    coveredBy registry ({ user := s0 } : EngState σ) := by
  intro x hx
  simp at hx

/-- The seed phase preserves the phase invariant and dependency coverage,
provided the targets come from the registry and have pairwise distinct,
fresh ids. -/
theorem seedPhase_phaseInv (registry : List ERule) (accept : ERule → Bool)
    (targets : List ERule) (proc : String → σ → σ × Bool)
    (hreg : (regIds registry).Nodup) :
    ∀ (rs : List ERule) (st : EngState σ),
      (∀ r ∈ rs, r ∈ registry) → (∀ r ∈ rs, r ∈ targets) →
      (rs.map ERule.id).Nodup →
      (∀ r ∈ rs, r.id ∉ st.ruleIds) →
      PhaseInv registry accept targets st → coveredBy registry st →
      PhaseInv registry accept targets (seedPhase accept proc rs st) ∧
      coveredBy registry (seedPhase accept proc rs st) := by
  intro rs
  induction rs with
  | nil => intro st _ _ _ _ hinv hcov; exact ⟨hinv, hcov⟩
  | cons r rest ih =>
    intro st hin htg hnd hfr hinv hcov
    rw [seedPhase]
    have hndr : (rest.map ERule.id).Nodup := by
      rw [List.map_cons, List.nodup_cons] at hnd
      exact hnd.2
    have hne : ∀ r' ∈ rest, r'.id ≠ r.id := by
      intro r' hr' he
      rw [List.map_cons, List.nodup_cons] at hnd
      exact hnd.1 (he ▸ List.mem_map_of_mem ERule.id hr')
    cases ha : accept r with
    | false =>
      have hso : seedOne accept proc r st = st := by
        simp [seedOne, ha]
      rw [hso]
      exact ih st (fun x hx => hin x (List.mem_cons_of_mem r hx))
        (fun x hx => htg x (List.mem_cons_of_mem r hx)) hndr
        (fun x hx => hfr x (List.mem_cons_of_mem r hx)) hinv hcov
    | true =>
      have hmem : r ∈ registry := hin r (List.mem_cons_self r rest)
      have hfresh : r.id ∉ st.ruleIds := hfr r (List.mem_cons_self r rest)
      have hreach : EReach registry accept targets r.id :=
        EReach.tgt r (htg r (List.mem_cons_self r rest)) ha
      have hP : PhaseInv registry accept targets (engProcess proc r st).1 :=
        engProcess_phaseInv registry accept targets proc r st hreg hmem hfresh
          hreach hinv
      have hC : coveredBy registry (engProcess proc r st).1 := by
        refine engProcess_covered registry proc r st hreg hmem ?_
        intro x hx d hd
        rcases hcov x hx d hd with h | h | h
        · exact Or.inl h
        · exact Or.inr (Or.inl h)
        · exact Or.inr (Or.inr (Or.inr h))
      have hPs : PhaseInv registry accept targets (seedOne accept proc r st) := by
        cases hpr : (engProcess proc r st).2 with
        | true => simpa [seedOne, ha, hpr] using hP
        | false =>
          have := phaseInv_qc registry accept targets (engProcess proc r st).1
            ((engProcess proc r st).1.queueCount + 1) hP
          simpa [seedOne, ha, hpr] using this
      have hCs : coveredBy registry (seedOne accept proc r st) := by
        cases hpr : (engProcess proc r st).2 with
        | true => simpa [seedOne, ha, hpr] using hC
        | false =>
          have := coveredBy_qc registry (engProcess proc r st).1
            ((engProcess proc r st).1.queueCount + 1) hC
          simpa [seedOne, ha, hpr] using this
      have hsoIds : (seedOne accept proc r st).ruleIds = r.id :: st.ruleIds := by
        rw [seedOne_ruleIds, if_pos ha]
      refine ih (seedOne accept proc r st)
        (fun x hx => hin x (List.mem_cons_of_mem r hx))
        (fun x hx => htg x (List.mem_cons_of_mem r hx)) hndr ?_ hPs hCs
      intro x hx
      rw [hsoIds]
      intro hmm
      rcases List.mem_cons.mp hmm with he | hm2
      · exact hne x hx he
      · exact hfr x (List.mem_cons_of_mem r hx) hm2

theorem depWeight_qc (registry : List ERule) (st : EngState σ) (n : Nat) :
    depWeight registry { st with queueCount := n } = depWeight registry st := rfl

/-- The discovery loop with an exhausted pending set exits at once. -/
theorem fetchLoop_nil (registry : List ERule) (proc : String → σ → σ × Bool)
    (fetch : Option Bool) (ask : Bool) (fuel : Nat) (st : EngState σ)
    (h : st.allDependencies = []) :
    fetchLoop registry proc fetch ask (fuel + 1) st = Sum.inr st := by
  obtain ⟨ids, tr, fl, ad, dm, qu, qc, u⟩ := st
  simp only at h
  subst h
  rfl

/-- One discovery step on a dependency already in scope. -/
theorem fetchLoop_cons_seen (registry : List ERule)
    (proc : String → σ → σ × Bool) (fetch : Option Bool) (ask : Bool)
    (fuel : Nat) (st : EngState σ) (d : String) (rest : List String)
    (h : st.allDependencies = d :: rest) (hd : d ∈ st.ruleIds) :
    fetchLoop registry proc fetch ask (fuel + 1) st =
      fetchLoop registry proc fetch ask fuel
        { st with allDependencies := rest } := by
  obtain ⟨ids, tr, fl, ad, dm, qu, qc, u⟩ := st
  simp only at h hd
  subst h
  simp only [fetchLoop]
  rw [if_pos hd]

/-- One discovery step on a dependency the registry cannot resolve. -/
theorem fetchLoop_cons_unknown (registry : List ERule)
    (proc : String → σ → σ × Bool) (fetch : Option Bool) (ask : Bool)
    (fuel : Nat) (st : EngState σ) (d : String) (rest : List String)
    (h : st.allDependencies = d :: rest) (hd : d ∉ st.ruleIds)
    (hg : getRule registry d = none) :
    fetchLoop registry proc fetch ask (fuel + 1) st =
      fetchLoop registry proc fetch ask fuel
        { st with allDependencies := rest } := by
  obtain ⟨ids, tr, fl, ad, dm, qu, qc, u⟩ := st
  simp only at h hd
  subst h
  simp only [fetchLoop]
  rw [if_neg hd, hg]

/-- One discovery step that fetches a registry rule, under a fetch policy
that (after at most one prompt) allows fetching. -/
theorem fetchLoop_cons_fetch (registry : List ERule)
    (proc : String → σ → σ × Bool) (fetch : Option Bool) (ask : Bool)
    (fuel : Nat) (st : EngState σ) (d : String) (rest : List String)
    (r : ERule) (h : st.allDependencies = d :: rest) (hd : d ∉ st.ruleIds)
    (hg : getRule registry d = some r)
    (hf : fetch = some true ∨ (fetch = none ∧ ask = true)) :
    fetchLoop registry proc fetch ask (fuel + 1) st =
      fetchLoop registry proc (some true) ask fuel
        (if (engProcess proc r { st with allDependencies := rest }).2 then
          (engProcess proc r { st with allDependencies := rest }).1
         else
          { (engProcess proc r { st with allDependencies := rest }).1 with
              queueCount :=
                (engProcess proc r
                  { st with allDependencies := rest }).1.queueCount + 1 }) := by
  obtain ⟨ids, tr, fl, ad, dm, qu, qc, u⟩ := st
  simp only at h hd
  subst h
  rcases hf with rfl | ⟨rfl, rfl⟩ <;>
  · simp only [fetchLoop]
    rw [if_neg hd, hg]
    simp

/-- The dependency-discovery loop, run with enough fuel under a policy that
allows fetching, drains the pending set while preserving the phase invariant
and dependency coverage, never leaving the scope to shrink. -/
theorem fetchLoop_phaseInv (registry : List ERule) (accept : ERule → Bool)
    (targets : List ERule) (proc : String → σ → σ × Bool) (ask : Bool)
    (hreg : (regIds registry).Nodup) :
    ∀ (fuel : Nat) (fetch : Option Bool) (st : EngState σ),
      depWeight registry st ≤ fuel →
      (fetch = some true ∨ (fetch = none ∧ ask = true)) →
      PhaseInv registry accept targets st →
      coveredBy registry st →
      ∃ st2, fetchLoop registry proc fetch ask fuel st = Sum.inr st2 ∧
        st2.allDependencies = [] ∧
        PhaseInv registry accept targets st2 ∧
        coveredBy registry st2 ∧
        ∀ x ∈ st.ruleIds, x ∈ st2.ruleIds := by
  intro fuel
  induction fuel with
  | zero =>
    intro fetch st hw hf hinv hcov
    have h1 : depWeight registry st =
        st.allDependencies.length +
        ((registry.filter (fun r' => r'.id ∉ st.ruleIds)).map
          (fun r' => 1 + r'.deps.length)).sum := rfl
    rw [h1] at hw
    have h0 : st.allDependencies = [] := List.length_eq_zero.mp (by omega)
    exact ⟨st, rfl, h0, hinv, hcov, fun x hx => hx⟩
  | succ fuel ih =>
    intro fetch st hw hf hinv hcov
    cases had : st.allDependencies with
    | nil =>
      exact ⟨st, fetchLoop_nil registry proc fetch ask fuel st had, had, hinv,
        hcov, fun x hx => hx⟩
    | cons d rest =>
      have h1 : depWeight registry st =
          st.allDependencies.length +
          ((registry.filter (fun r' => r'.id ∉ st.ruleIds)).map
            (fun r' => 1 + r'.deps.length)).sum := rfl
      have h1' : st.allDependencies.length = rest.length + 1 := by
        rw [had]
        rfl
      have hinv' : PhaseInv registry accept targets
          { st with allDependencies := rest } :=
        phaseInv_pop registry accept targets st d rest had hinv
      have hw' : depWeight registry { st with allDependencies := rest } ≤ fuel := by
        have h2 : depWeight registry { st with allDependencies := rest } =
            rest.length +
            ((registry.filter (fun r' => r'.id ∉ st.ruleIds)).map
              (fun r' => 1 + r'.deps.length)).sum := rfl
        rw [h2]
        rw [h1, h1'] at hw
        omega
      by_cases hdin : d ∈ st.ruleIds
      · have hcov' : coveredBy registry { st with allDependencies := rest } := by
          intro x hx dd hdd
          rcases hcov x hx dd hdd with h | h | h
          · exact Or.inl h
          · rw [had] at h
            rcases List.mem_cons.mp h with rfl | h2
            · exact Or.inl hdin
            · exact Or.inr (Or.inl h2)
          · exact Or.inr (Or.inr h)
        obtain ⟨st2, heq, h0, hI, hC, hM⟩ :=
          ih fetch { st with allDependencies := rest } hw' hf hinv' hcov'
        refine ⟨st2, ?_, h0, hI, hC, fun x hx => hM x hx⟩
        rw [fetchLoop_cons_seen registry proc fetch ask fuel st d rest had hdin]
        exact heq
      · cases hg : getRule registry d with
        | none =>
          have hdnr : d ∉ regIds registry := (getRule_none_iff registry d).mp hg
          have hcov' : coveredBy registry { st with allDependencies := rest } := by
            intro x hx dd hdd
            rcases hcov x hx dd hdd with h | h | h
            · exact Or.inl h
            · rw [had] at h
              rcases List.mem_cons.mp h with rfl | h2
              · exact Or.inr (Or.inr hdnr)
              · exact Or.inr (Or.inl h2)
            · exact Or.inr (Or.inr h)
          obtain ⟨st2, heq, h0, hI, hC, hM⟩ :=
            ih fetch { st with allDependencies := rest } hw' hf hinv' hcov'
          refine ⟨st2, ?_, h0, hI, hC, fun x hx => hM x hx⟩
          rw [fetchLoop_cons_unknown registry proc fetch ask fuel st d rest had
            hdin hg]
          exact heq
        | some r =>
          obtain ⟨hmemr, hridd⟩ := getRule_mem registry d r hg
          have hnid : r.id ∉ st.ruleIds := by
            rw [hridd]
            exact hdin
          have hreachd : EReach registry accept targets d :=
            hinv.reach_deps d (by rw [had]; exact List.mem_cons_self d rest)
          have hreachr : EReach registry accept targets r.id := by
            rw [hridd]
            exact hreachd
          have hfr : r.id ∉
              ({ st with allDependencies := rest } : EngState σ).ruleIds := hnid
          have hinvP : PhaseInv registry accept targets
              (engProcess proc r { st with allDependencies := rest }).1 :=
            engProcess_phaseInv registry accept targets proc r
              { st with allDependencies := rest } hreg hmemr hfr hreachr hinv'
          have hcovP : coveredBy registry
              (engProcess proc r { st with allDependencies := rest }).1 := by
            refine engProcess_covered registry proc r
              { st with allDependencies := rest } hreg hmemr ?_
            intro x hx dd hdd
            rcases hcov x hx dd hdd with h | h | h
            · exact Or.inl h
            · rw [had] at h
              rcases List.mem_cons.mp h with rfl | h2
              · exact Or.inr (Or.inr (Or.inl hridd.symm))
              · exact Or.inr (Or.inl h2)
            · exact Or.inr (Or.inr (Or.inr h))
          have hru : ({ st with allDependencies := rest } : EngState σ).ruleIds
              = st.ruleIds := rfl
          have had' : ({ st with allDependencies := rest } :
              EngState σ).allDependencies = rest := rfl
          have h4 : (engProcess proc r
                { st with allDependencies := rest }).1.ruleIds
              = r.id :: st.ruleIds := by
            rw [engProcess_ruleIds]
          have h3 : (engProcess proc r
                { st with allDependencies := rest }).1.allDependencies =
              (if r.deps = [] then rest
               else rest ++ r.deps.filter (fun dd => dd ∉ r.id :: st.ruleIds)) := by
            rw [engProcess_allDeps]
          have hlen : (engProcess proc r
                { st with allDependencies := rest }).1.allDependencies.length
              ≤ rest.length + r.deps.length := by
            rw [h3]
            split
            · omega
            · rw [List.length_append]
              have := List.length_filter_le
                (fun dd => (dd ∉ r.id :: st.ruleIds : Bool)) r.deps
              omega
          have hdrop :
              ((registry.filter (fun r' => r'.id ∉ r.id :: st.ruleIds)).map
                (fun r' => 1 + r'.deps.length)).sum + (1 + r.deps.length) ≤
              ((registry.filter (fun r' => r'.id ∉ st.ruleIds)).map
                (fun r' => 1 + r'.deps.length)).sum := by
            have himp : ∀ y : ERule,
                (fun r' : ERule => (r'.id ∉ r.id :: st.ruleIds : Bool)) y = true →
                (fun r' : ERule => (r'.id ∉ st.ruleIds : Bool)) y = true := by
              intro y hy
              simp only [decide_eq_true_eq] at hy ⊢
              exact fun hmm => hy (List.mem_cons_of_mem _ hmm)
            exact sum_filter_drop (fun r' => 1 + r'.deps.length)
              (fun r' => r'.id ∉ st.ruleIds)
              (fun r' => r'.id ∉ r.id :: st.ruleIds)
              himp registry r hmemr (by simpa using hnid) (by simp)
          have h5 : depWeight registry (engProcess proc r
                { st with allDependencies := rest }).1 =
              (engProcess proc r
                { st with allDependencies := rest }).1.allDependencies.length +
              ((registry.filter (fun r' => r'.id ∉ (engProcess proc r
                  { st with allDependencies := rest }).1.ruleIds)).map
                (fun r' => 1 + r'.deps.length)).sum := rfl
          have hwP : depWeight registry (engProcess proc r
              { st with allDependencies := rest }).1 ≤ fuel := by
            rw [h5]
            simp only [h4]
            rw [h1, h1'] at hw
            omega
          rw [fetchLoop_cons_fetch registry proc fetch ask fuel st d rest r had
            hdin hg hf]
          by_cases hb : (engProcess proc r
              { st with allDependencies := rest }).2 = true
          · rw [if_pos hb]
            obtain ⟨st2, heq, h0, hI, hC, hM⟩ :=
              ih (some true) (engProcess proc r
                { st with allDependencies := rest }).1 hwP (Or.inl rfl)
                hinvP hcovP
            refine ⟨st2, heq, h0, hI, hC, ?_⟩
            intro x hx
            refine hM x ?_
            rw [h4]
            exact List.mem_cons_of_mem _ hx
          · rw [if_neg hb]
            have hwQ : depWeight registry
                { (engProcess proc r { st with allDependencies := rest }).1 with
                    queueCount := (engProcess proc r
                      { st with allDependencies := rest }).1.queueCount + 1 }
                ≤ fuel := by
              rw [depWeight_qc]
              exact hwP
            obtain ⟨st2, heq, h0, hI, hC, hM⟩ :=
              ih (some true)
                { (engProcess proc r { st with allDependencies := rest }).1 with
                    queueCount := (engProcess proc r
                      { st with allDependencies := rest }).1.queueCount + 1 }
                hwQ (Or.inl rfl)
                (phaseInv_qc registry accept targets _ _ hinvP)
                (coveredBy_qc registry _ _ hcovP)
            refine ⟨st2, heq, h0, hI, hC, ?_⟩
            intro x hx
            refine hM x ?_
            show x ∈ (engProcess proc r
              { st with allDependencies := rest }).1.ruleIds
            rw [h4]
            exact List.mem_cons_of_mem _ hx

/-! ## The drain invariant -/

theorem remOf_set (st : EngState σ) (dm' : List (String × List String))
    (qq : List String) (q : String) :
    remOf { st with depsMap := dm', queue := qq } q =
      (lookupA dm' q).getD [] := rfl

theorem remOf_proc (proc : String → σ → σ × Bool) (rid : String)
    (st : EngState σ) (q : String) :
    remOf (processRuleCb proc rid st) q = remOf st q := rfl

theorem remOf_set3 (st : EngState σ) (dm' : List (String × List String))
    (qq : List String) (u' : σ) (q : String) :
    remOf { st with depsMap := dm', queue := qq, user := u' } q =
      (lookupA dm' q).getD [] := rfl

theorem procCb_failed (proc : String → σ → σ × Bool) (rid : String)
    (st : EngState σ) :
    (processRuleCb proc rid st).failed =
      (if (proc rid st.user).2 = true then st.failed
       else rid :: st.failed) := rfl

/-- One iteration of the drain loop on a non-empty queue, with the state
updates written out. -/
theorem drain_succ2 (sfd : String → Option String → σ → σ)
    (proc : String → σ → σ × Bool) (b : Nat) (st : EngState σ) (q0 : String)
    (qrest : List String) (h : st.queue = q0 :: qrest) :
    drain sfd proc (b + 1) st =
      (if (scanDeps st.ruleIds st.trace st.failed
            ((lookupA st.depsMap q0).getD [])).2.1 = true ∧
          (scanDeps st.ruleIds st.trace st.failed
            ((lookupA st.depsMap q0).getD [])).2.2 = none then
        drain sfd proc b
          { st with
              depsMap := updateA st.depsMap q0
                (scanDeps st.ruleIds st.trace st.failed
                  ((lookupA st.depsMap q0).getD [])).1,
              queue := qrest ++ [q0] }
      else
        drain sfd proc b
          (processRuleCb proc q0
            { st with
                depsMap := updateA st.depsMap q0
                  (scanDeps st.ruleIds st.trace st.failed
                    ((lookupA st.depsMap q0).getD [])).1,
                queue := qrest,
                user := sfd q0 (scanDeps st.ruleIds st.trace st.failed
                  ((lookupA st.depsMap q0).getD [])).2.2 st.user })) := by
  obtain ⟨ids, tr, fl, ad, dm, qu, qc, u⟩ := st
  simp only at h
  subst h
  rfl

/-- A queue drain that completes normally preserves the drain invariant,
empties the queue, and never changes the scope. -/
theorem drain_drainInv (registry : List ERule)
    (sfd : String → Option String → σ → σ) (proc : String → σ → σ × Bool) :
    ∀ (b : Nat) (st st' : EngState σ),
      DrainInv registry st →
      drain sfd proc b st = .done st' →
      DrainInv registry st' ∧ st'.queue = [] ∧ st'.ruleIds = st.ruleIds := by
  intro b
  induction b with
  | zero =>
    intro st st' hinv hdone
    cases hq : st.queue with
    | nil =>
      rw [drain_nil sfd proc 0 st hq] at hdone
      injection hdone with h
      subst h
      exact ⟨hinv, hq, rfl⟩
    | cons q0 qrest =>
      rw [drain_zero sfd proc st q0 qrest hq] at hdone
      cases hdone
  | succ b ih =>
    intro st st' hinv hdone
    cases hq : st.queue with
    | nil =>
      rw [drain_nil sfd proc (b + 1) st hq] at hdone
      injection hdone with h
      subst h
      exact ⟨hinv, hq, rfl⟩
    | cons rid qrest =>
      have hq0 : rid ∈ st.queue := by
        rw [hq]
        exact List.mem_cons_self rid qrest
      have hrq : rid ∉ qrest := by
        have hnq := hinv.queue_nodup
        rw [hq, List.nodup_cons] at hnq
        exact hnq.1
      have hqn : qrest.Nodup := by
        have hnq := hinv.queue_nodup
        rw [hq, List.nodup_cons] at hnq
        exact hnq.2
      have hqsub : ∀ q ∈ qrest, q ∈ st.queue := by
        intro q hmm
        rw [hq]
        exact List.mem_cons_of_mem rid hmm
      have hrt : rid ∉ st.trace := hinv.queue_fresh rid hq0
      have hri : rid ∈ st.ruleIds := (hinv.ids_iff rid).mpr (Or.inr hq0)
      rw [drain_succ2 sfd proc b st rid qrest hq] at hdone
      generalize hsc : scanDeps st.ruleIds st.trace st.failed
          ((lookupA st.depsMap rid).getD []) = sc at hdone
      have hscan_sub : ∀ dd ∈ sc.1, dd ∈ remOf st rid := by
        intro dd hdd
        exact scanDeps_sub st.ruleIds st.trace st.failed
          ((lookupA st.depsMap rid).getD []) dd (by rw [hsc]; exact hdd)
      have hscan_drop : ∀ dd ∈ remOf st rid, dd ∉ sc.1 →
          dd ∉ st.ruleIds ∨ dd ∈ st.trace ∨ dd ∈ st.failed := by
        intro dd h1 h2
        exact scanDeps_dropped st.ruleIds st.trace st.failed
          ((lookupA st.depsMap rid).getD []) dd h1 (by rw [hsc]; exact h2)
      have hscan_complete : sc.2.1 = false → sc.2.2 = none →
          ∀ dd ∈ remOf st rid,
            dd ∉ st.ruleIds ∨ dd ∈ st.trace ∨ dd ∈ st.failed := by
        intro hf1 hn1 dd hdd
        exact scanDeps_complete st.ruleIds st.trace st.failed
          ((lookupA st.depsMap rid).getD [])
          (by rw [hsc]; exact hf1) (by rw [hsc]; exact hn1) dd hdd
      have hscan_fail : ∀ e, sc.2.2 = some e →
          e ∈ st.failed ∧ e ∈ remOf st rid := by
        intro e he
        exact scanDeps_failed st.ruleIds st.trace st.failed
          ((lookupA st.depsMap rid).getD []) e (by rw [hsc]; exact he)
      by_cases hc : sc.2.1 = true ∧ sc.2.2 = none
      · rw [if_pos hc] at hdone
        have hinvR : DrainInv registry
            { st with depsMap := updateA st.depsMap rid sc.1, queue := qrest ++ [rid] } := by
          refine ⟨hinv.trace_nodup, nodup_concat rid qrest hqn hrq, ?_, ?_,
            hinv.failed_sub, ?_, ?_, hinv.ordered⟩
          · intro q hqq
            rcases List.mem_append.mp hqq with h | h
            · exact hinv.queue_fresh q (hqsub q h)
            · rw [List.mem_singleton.mp h]
              exact hrt
          · intro x
            constructor
            · intro hx
              rcases (hinv.ids_iff x).mp hx with h | h
              · exact Or.inl h
              · rw [hq] at h
                rcases List.mem_cons.mp h with rfl | h2
                · exact Or.inr (List.mem_append.mpr
                    (Or.inr (List.mem_singleton.mpr rfl)))
                · exact Or.inr (List.mem_append.mpr (Or.inl h2))
            · intro hx
              rcases hx with h | h
              · exact (hinv.ids_iff x).mpr (Or.inl h)
              · rcases List.mem_append.mp h with h2 | h2
                · exact (hinv.ids_iff x).mpr (Or.inr (hqsub x h2))
                · rw [List.mem_singleton.mp h2]
                  exact hri
          · intro q hqq dd hdd
            rcases List.mem_append.mp hqq with h | h
            · have hne : q ≠ rid := fun he => hrq (he ▸ h)
              rw [remOf_set, lookupA_updateA_ne st.depsMap rid q sc.1 hne]
                at hdd
              exact hinv.rem_sub q (hqsub q h) dd hdd
            · rw [List.mem_singleton.mp h] at hdd ⊢
              cases hlk : lookupA st.depsMap rid with
              | none =>
                exfalso
                rw [← hsc, hlk] at hc
                simp [scanDeps] at hc
              | some w =>
                rw [remOf_set,
                  lookupA_updateA_self st.depsMap rid sc.1 w hlk,
                  Option.getD_some] at hdd
                exact hinv.rem_sub rid hq0 dd (hscan_sub dd hdd)
          · intro q hqq dd hdd hnot
            rcases List.mem_append.mp hqq with h | h
            · have hne : q ≠ rid := fun he => hrq (he ▸ h)
              rw [remOf_set, lookupA_updateA_ne st.depsMap rid q sc.1 hne]
                at hnot
              exact hinv.rem_benign q (hqsub q h) dd hdd hnot
            · rw [List.mem_singleton.mp h] at hdd hnot
              cases hlk : lookupA st.depsMap rid with
              | none =>
                exfalso
                rw [← hsc, hlk] at hc
                simp [scanDeps] at hc
              | some w =>
                rw [remOf_set,
                  lookupA_updateA_self st.depsMap rid sc.1 w hlk,
                  Option.getD_some] at hnot
                by_cases hin : dd ∈ remOf st rid
                · rcases hscan_drop dd hin hnot with h1 | h1 | h1
                  · exact Or.inl h1
                  · exact Or.inr h1
                  · exact Or.inr (hinv.failed_sub dd h1)
                · exact hinv.rem_benign rid hq0 dd hdd hin
        obtain ⟨hD, hq2, hids2⟩ := ih _ st' hinvR hdone
        exact ⟨hD, hq2, hids2⟩
      · rw [if_neg hc] at hdone
        have hfmono : ∀ x ∈ st.failed,
            x ∈ (processRuleCb proc rid
              { st with depsMap := updateA st.depsMap rid sc.1, queue := qrest, user := sfd rid sc.2.2 st.user }).failed := by
          intro x hx
          rw [procCb_failed]
          split
          · exact hx
          · exact List.mem_cons_of_mem _ hx
        have hkey : ∀ dd ∈ depsOfId registry rid, dd ∈ st.ruleIds →
            dd ∈ st.trace ∨
            ∃ e ∈ depsOfId registry rid, e ∈ st.trace ∧ e ∈ st.failed := by
          cases hdf : sc.2.2 with
          | some e =>
            obtain ⟨hef, herem⟩ := hscan_fail e hdf
            intro dd _ _
            exact Or.inr ⟨e, hinv.rem_sub rid hq0 e herem,
              hinv.failed_sub e hef, hef⟩
          | none =>
            have hfa : sc.2.1 = false := by
              cases hb2 : sc.2.1
              · rfl
              · exact absurd ⟨hb2, hdf⟩ hc
            intro dd hdd hdin
            by_cases hin : dd ∈ remOf st rid
            · rcases hscan_complete hfa hdf dd hin with h | h | h
              · exact absurd hdin h
              · exact Or.inl h
              · exact Or.inl (hinv.failed_sub dd h)
            · rcases hinv.rem_benign rid hq0 dd hdd hin with h | h
              · exact absurd hdin h
              · exact Or.inl h
        have hordP : orderRespected registry
            (processRuleCb proc rid
              { st with depsMap := updateA st.depsMap rid sc.1, queue := qrest, user := sfd rid sc.2.2 st.user }) := by
          intro k hk dd hdd hdin
          by_cases hklt : k < st.trace.length
          · have hgeteq : (processRuleCb proc rid
                { st with depsMap := updateA st.depsMap rid sc.1, queue := qrest, user := sfd rid sc.2.2 st.user }).trace.get ⟨k, hk⟩ =
                st.trace.get ⟨k, hklt⟩ := by
              show (st.trace ++ [rid]).get ⟨k, hk⟩ = st.trace.get ⟨k, hklt⟩
              rw [List.get_eq_getElem, List.get_eq_getElem]
              exact List.getElem_append_left hklt
            have htake : (processRuleCb proc rid
                { st with depsMap := updateA st.depsMap rid sc.1, queue := qrest, user := sfd rid sc.2.2 st.user }).trace.take k =
                st.trace.take k := by
              show (st.trace ++ [rid]).take k = st.trace.take k
              exact List.take_append_of_le_length (by omega)
            rw [hgeteq] at hdd
            rcases hinv.ordered k hklt dd hdd hdin with h | ⟨e, he1, he2, he3⟩
            · left
              rw [htake]
              exact h
            · right
              refine ⟨e, ?_, ?_, ?_⟩
              · rw [hgeteq]
                exact he1
              · rw [htake]
                exact he2
              · exact hfmono e he3
          · have hlen2 : (processRuleCb proc rid
                { st with depsMap := updateA st.depsMap rid sc.1, queue := qrest, user := sfd rid sc.2.2 st.user }).trace.length =
                st.trace.length + 1 := by
              show (st.trace ++ [rid]).length = st.trace.length + 1
              simp
            have hkeq : k = st.trace.length := by
              rw [hlen2] at hk
              omega
            have hgeteq : (processRuleCb proc rid
                { st with depsMap := updateA st.depsMap rid sc.1, queue := qrest, user := sfd rid sc.2.2 st.user }).trace.get ⟨k, hk⟩ =
                rid := by
              show (st.trace ++ [rid]).get ⟨k, hk⟩ = rid
              rw [List.get_eq_getElem]
              exact List.getElem_concat_length st.trace rid k hkeq _
            have htake : (processRuleCb proc rid
                { st with depsMap := updateA st.depsMap rid sc.1, queue := qrest, user := sfd rid sc.2.2 st.user }).trace.take k =
                st.trace := by
              show (st.trace ++ [rid]).take k = st.trace
              rw [hkeq]
              exact List.take_left st.trace [rid]
            rw [hgeteq] at hdd
            rcases hkey dd hdd hdin with h | ⟨e, he1, he2, he3⟩
            · left
              rw [htake]
              exact h
            · right
              refine ⟨e, ?_, ?_, ?_⟩
              · rw [hgeteq]
                exact he1
              · rw [htake]
                exact he2
              · exact hfmono e he3
        have hinvP : DrainInv registry
            (processRuleCb proc rid
              { st with depsMap := updateA st.depsMap rid sc.1, queue := qrest, user := sfd rid sc.2.2 st.user }) := by
          refine ⟨?_, hqn, ?_, ?_, ?_, ?_, ?_, hordP⟩
          · show (st.trace ++ [rid]).Nodup
            exact nodup_concat rid st.trace hinv.trace_nodup hrt
          · intro q hqq
            show q ∉ st.trace ++ [rid]
            intro hmm
            rcases List.mem_append.mp hmm with h | h
            · exact hinv.queue_fresh q (hqsub q hqq) h
            · exact hrq ((List.mem_singleton.mp h) ▸ hqq)
          · intro x
            show x ∈ st.ruleIds ↔ x ∈ st.trace ++ [rid] ∨ x ∈ qrest
            constructor
            · intro hx
              rcases (hinv.ids_iff x).mp hx with h | h
              · exact Or.inl (List.mem_append.mpr (Or.inl h))
              · rw [hq] at h
                rcases List.mem_cons.mp h with rfl | h2
                · exact Or.inl (List.mem_append.mpr
                    (Or.inr (List.mem_singleton.mpr rfl)))
                · exact Or.inr h2
            · intro hx
              rcases hx with h | h
              · rcases List.mem_append.mp h with h2 | h2
                · exact (hinv.ids_iff x).mpr (Or.inl h2)
                · rw [List.mem_singleton.mp h2]
                  exact hri
              · exact (hinv.ids_iff x).mpr (Or.inr (hqsub x h))
          · intro x hx
            rw [procCb_failed] at hx
            show x ∈ st.trace ++ [rid]
            revert hx
            split
            · intro hx
              exact List.mem_append.mpr (Or.inl (hinv.failed_sub x hx))
            · intro hx
              rcases List.mem_cons.mp hx with rfl | h2
              · exact List.mem_append.mpr
                  (Or.inr (List.mem_singleton.mpr rfl))
              · exact List.mem_append.mpr (Or.inl (hinv.failed_sub x h2))
          · intro q hqq dd hdd
            have hne : q ≠ rid := fun he => hrq (he ▸ hqq)
            rw [remOf_proc, remOf_set3,
              lookupA_updateA_ne st.depsMap rid q sc.1 hne] at hdd
            exact hinv.rem_sub q (hqsub q hqq) dd hdd
          · intro q hqq dd hdd hnot
            have hne : q ≠ rid := fun he => hrq (he ▸ hqq)
            rw [remOf_proc, remOf_set3,
              lookupA_updateA_ne st.depsMap rid q sc.1 hne] at hnot
            rcases hinv.rem_benign q (hqsub q hqq) dd hdd hnot with h | h
            · exact Or.inl h
            · right
              show dd ∈ st.trace ++ [rid]
              exact List.mem_append.mpr (Or.inl h)
        obtain ⟨hD, hq2, hids2⟩ := ih _ st' hinvP hdone
        exact ⟨hD, hq2, hids2⟩

theorem engProcess_scope (proc : String → σ → σ × Bool) (r : ERule)
    (st : EngState σ) (hP : scopeOK st) : scopeOK (engProcess proc r st).1 := by
  intro x hx
  rw [engProcess_ruleIds] at hx
  by_cases h : r.deps = [] <;>
    simp only [engProcess, processRuleCb, h, if_pos, if_neg] <;>
    simp only [scopeOK] at hP
  · rcases List.mem_cons.mp hx with rfl | hx'
    · simp
    · rcases hP x hx' with h1 | h1 <;> simp [h1]
  · simp [engProcess, h]
    rcases List.mem_cons.mp hx with rfl | hx'
    · simp
    · rcases hP x hx' with h1 | h1 <;> simp [h1]

theorem seedOne_scope (accept : ERule → Bool) (proc : String → σ → σ × Bool)
    (r : ERule) (st : EngState σ) (hP : scopeOK st) :
    scopeOK (seedOne accept proc r st) ∧
    (∀ x ∈ st.ruleIds, x ∈ (seedOne accept proc r st).ruleIds) ∧
    (accept r = true → r.id ∈ (seedOne accept proc r st).ruleIds) := by
  by_cases ha : accept r = true
  · have hps := engProcess_scope proc r st hP
    have hpi := engProcess_ruleIds proc r st
    cases hpr : (engProcess proc r st).2 with
    | true =>
      refine ⟨?_, ?_, ?_⟩
      · intro x hx
        simp only [seedOne, ha, hpr, if_true] at hx ⊢
        exact hps x hx
      · intro x hx
        simp [seedOne, ha, hpr, hpi, hx]
      · intro _
        simp [seedOne, ha, hpr, hpi]
    | false =>
      refine ⟨?_, ?_, ?_⟩
      · intro x hx
        simp only [seedOne, ha, hpr, Bool.false_eq_true, if_true, if_false] at hx ⊢
        exact hps x hx
      · intro x hx
        simp [seedOne, ha, hpr, hpi, hx]
      · intro _
        simp [seedOne, ha, hpr, hpi]
  · have ha' : accept r = false := by
      revert ha; cases accept r <;> simp
    exact ⟨by simpa [seedOne, ha'] using hP, by simp [seedOne, ha'],
      by simp [ha']⟩

theorem seedPhase_scope (accept : ERule → Bool) (proc : String → σ → σ × Bool) :
    ∀ (rules : List ERule) (st : EngState σ), scopeOK st →
      scopeOK (seedPhase accept proc rules st) ∧
      (∀ x ∈ st.ruleIds, x ∈ (seedPhase accept proc rules st).ruleIds) ∧
      (∀ r ∈ rules, accept r = true →
        r.id ∈ (seedPhase accept proc rules st).ruleIds) := by
  intro rules
  induction rules with
  | nil => intro st hP; exact ⟨hP, fun x hx => hx, by simp⟩
  | cons r rs ih =>
    intro st hP
    obtain ⟨h1, h2, h3⟩ := seedOne_scope accept proc r st hP
    obtain ⟨k1, k2, k3⟩ := ih (seedOne accept proc r st) h1
    refine ⟨k1, ?_, ?_⟩
    · intro x hx
      exact k2 x (h2 x hx)
    · intro r' hr' ha
      rcases List.mem_cons.mp hr' with rfl | hmem
      · exact k2 r'.id (h3 ha)
      · exact k3 r' hmem ha

/-- The drain loop never cancels a run. -/
theorem drain_not_canceled (sfd : String → Option String → σ → σ)
    (proc : String → σ → σ × Bool) :
    ∀ (b : Nat) (st : EngState σ), (drain sfd proc b st).isCanceled = false := by
  intro b
  induction b with
  | zero =>
    intro st
    cases hq : st.queue with
    | nil => rw [drain_nil sfd proc 0 st hq]; rfl
    | cons q0 qrest => rw [drain_zero sfd proc st q0 qrest hq]; rfl
  | succ b ih =>
    intro st
    cases hq : st.queue with
    | nil => rw [drain_nil sfd proc (b + 1) st hq]; rfl
    | cons q0 qrest =>
      rw [drain_succ sfd proc b st q0 qrest hq]
      by_cases hc : ((scanDeps st.ruleIds st.trace st.failed
            ((lookupA st.depsMap q0).getD [])).2.1 = true ∧
          (scanDeps st.ruleIds st.trace st.failed
            ((lookupA st.depsMap q0).getD [])).2.2 = none)
      · simp only [hc, and_self, if_true]
        exact ih _
      · simp only [if_neg hc]
        exact ih _

/-- If the drain loop finishes normally, the queue was emptied, the scope
was not touched, and every in-scope rule has been processed. -/
theorem drain_done_scope (sfd : String → Option String → σ → σ)
    (proc : String → σ → σ × Bool) :
    ∀ (b : Nat) (st st' : EngState σ), scopeOK st →
      drain sfd proc b st = .done st' →
      st'.queue = [] ∧ st'.ruleIds = st.ruleIds ∧
      (∀ x ∈ st'.ruleIds, x ∈ st'.trace) := by
  intro b
  induction b with
  | zero =>
    intro st st' hP h
    cases hq : st.queue with
    | nil =>
      rw [drain_nil sfd proc 0 st hq] at h
      cases h
      refine ⟨hq, rfl, ?_⟩
      intro x hx
      rcases hP x hx with h1 | h1
      · exact h1
      · rw [hq] at h1; cases h1
    | cons q0 qrest =>
      rw [drain_zero sfd proc st q0 qrest hq] at h
      cases h
  | succ b ih =>
    intro st st' hP h
    cases hq : st.queue with
    | nil =>
      rw [drain_nil sfd proc (b + 1) st hq] at h
      cases h
      refine ⟨hq, rfl, ?_⟩
      intro x hx
      rcases hP x hx with h1 | h1
      · exact h1
      · rw [hq] at h1; cases h1
    | cons q0 qrest =>
      rw [drain_succ sfd proc b st q0 qrest hq] at h
      by_cases hc : ((scanDeps st.ruleIds st.trace st.failed
            ((lookupA st.depsMap q0).getD [])).2.1 = true ∧
          (scanDeps st.ruleIds st.trace st.failed
            ((lookupA st.depsMap q0).getD [])).2.2 = none)
      · simp only [hc, and_self, if_true] at h
        obtain ⟨r1, r2, r3⟩ := ih _ st'
          (by
            intro x hx
            simp only at hx ⊢
            rcases hP x hx with h1 | h1
            · exact Or.inl h1
            · rw [hq] at h1
              rcases List.mem_cons.mp h1 with rfl | h2
              · exact Or.inr (by simp)
              · exact Or.inr (by simp [h2])) h
        exact ⟨r1, by simpa using r2, r3⟩
      · simp only [if_neg hc] at h
        obtain ⟨r1, r2, r3⟩ := ih _ st'
          (by
            intro x hx
            simp only [processRuleCb] at hx ⊢
            rcases hP x hx with h1 | h1
            · simp [h1]
            · rw [hq] at h1
              rcases List.mem_cons.mp h1 with rfl | h2
              · simp
              · simp [h2]) h
        exact ⟨r1, by simpa [processRuleCb] using r2, r3⟩

/-- A set of queued rules each of which still waits on another member of the
set (an in-scope dependency cycle) is never processed as long as no
processed rule fails: the drain loop requeues its members forever and
exhausts any budget, raising the cycle error. -/
theorem drain_cycle_of_locked (σ : Type) (sfd : String → Option String → σ → σ)
    (proc : String → σ → σ × Bool) (hproc : ∀ rid s, (proc rid s).2 = true) :
    ∀ (b : Nat) (st : EngState σ) (C : List String),
      st.failed = [] → C ≠ [] →
      (∀ c ∈ C, c ∈ st.queue) → (∀ c ∈ C, c ∈ st.ruleIds) →
      (∀ c ∈ C, c ∉ st.trace) → (∀ c ∈ C, ∃ d ∈ C, d ∈ remOf st c) →
      (drain sfd proc b st).isCycle = true := by
  intro b
  induction b with
  | zero =>
    intro st C hfail hne hq hids htr hdep
    obtain ⟨c0, hc0⟩ := List.exists_mem_of_ne_nil C hne
    have hc0q : c0 ∈ st.queue := hq c0 hc0
    cases hqq : st.queue with
    | nil => rw [hqq] at hc0q; cases hc0q
    | cons q0 qrest => rw [drain_zero sfd proc st q0 qrest hqq]; rfl
  | succ b ih =>
    intro st C hfail hne hq hids htr hdep
    obtain ⟨c0, hc0⟩ := List.exists_mem_of_ne_nil C hne
    have hc0q : c0 ∈ st.queue := hq c0 hc0
    cases hqq : st.queue with
    | nil => rw [hqq] at hc0q; cases hc0q
    | cons q0 qrest =>
      rw [drain_succ sfd proc b st q0 qrest hqq]
      have hnone : (scanDeps st.ruleIds st.trace st.failed
          ((lookupA st.depsMap q0).getD [])).2.2 = none := by
        rw [hfail]
        exact scanDeps_none_of_failed_nil st.ruleIds st.trace _
      by_cases hpend : (scanDeps st.ruleIds st.trace st.failed
          ((lookupA st.depsMap q0).getD [])).2.1 = true
      · -- the dequeued rule still waits: it is requeued
        simp only [hpend, hnone, and_self, if_true]
        apply ih _ C
        · simpa using hfail
        · exact hne
        · intro c hc
          have := hq c hc
          rw [hqq] at this
          simp at this ⊢
          tauto
        · intro c hc; simpa using hids c hc
        · intro c hc; simpa using htr c hc
        · intro c hc
          by_cases hcq : c = q0
          · subst hcq
            obtain ⟨d, hdC, hdrem⟩ := hdep c hc
            have hdid : d ∈ st.ruleIds := hids d hdC
            have hdtr : d ∉ st.trace := htr d hdC
            rw [remOf] at hdrem
            have hdrem' : d ∈ (lookupA st.depsMap c).getD [] := hdrem
            have hp : (scanDeps st.ruleIds st.trace st.failed
                ((lookupA st.depsMap c).getD [])).2.1 = true ∧
                d ∈ (scanDeps st.ruleIds st.trace st.failed
                  ((lookupA st.depsMap c).getD [])).1 := by
              rw [hfail]
              exact scanDeps_pending st.ruleIds st.trace _ d hdrem' hdid hdtr
            refine ⟨d, hdC, ?_⟩
            rw [remOf]
            simp only
            cases hl : lookupA st.depsMap c with
            | none => rw [hl] at hdrem'; simp at hdrem'
            | some rem0 =>
              rw [lookupA_updateA_self st.depsMap c _ rem0 hl]
              rw [hl] at hp
              simpa using hp.2
          · obtain ⟨d, hdC, hdrem⟩ := hdep c hc
            refine ⟨d, hdC, ?_⟩
            rw [remOf] at hdrem ⊢
            simpa [lookupA_updateA_ne st.depsMap q0 c _ hcq] using hdrem
      · -- the dequeued rule is processed: it cannot be in the cycle set
        have hq0 : q0 ∉ C := by
          intro hq0C
          obtain ⟨d, hdC, hdrem⟩ := hdep q0 hq0C
          rw [remOf] at hdrem
          have hp : (scanDeps st.ruleIds st.trace st.failed
              ((lookupA st.depsMap q0).getD [])).2.1 = true := by
            rw [hfail]
            exact (scanDeps_pending st.ruleIds st.trace _ d hdrem
              (hids d hdC) (htr d hdC)).1
          exact hpend hp
        simp only [hpend, hnone, false_and, and_self, if_false,
          Bool.false_eq_true]
        apply ih _ C
        · simp [processRuleCb, hproc, hfail]
        · exact hne
        · intro c hc
          have := hq c hc
          rw [hqq] at this
          have hcq : c ≠ q0 := fun h => hq0 (h ▸ hc)
          simp [processRuleCb] at this ⊢
          tauto
        · intro c hc
          simpa [processRuleCb] using hids c hc
        · intro c hc
          have hcq : c ≠ q0 := fun h => hq0 (h ▸ hc)
          have := htr c hc
          simp [processRuleCb]
          tauto
        · intro c hc
          have hcq : c ≠ q0 := fun h => hq0 (h ▸ hc)
          obtain ⟨d, hdC, hdrem⟩ := hdep c hc
          refine ⟨d, hdC, ?_⟩
          rw [remOf] at hdrem ⊢
          simpa [processRuleCb, lookupA_updateA_ne st.depsMap q0 c _ hcq]
            using hdrem

/-- C2 (amended): once the drain loop's dequeue budget is exhausted
(`iter_count > max_iters`) with work left in the queue, the engine raises
the cycle error with the state unchanged — no rule has the process callback
invoked at or after that point; any set of rules forming an in-scope
dependency cycle, none of whose members is unblocked by a failed
dependency (e.g. when the process callback never fails), exhausts the
budget and raises; in particular the three-rule cycle X → Y → Z → X run
with dependency fetching enabled raises the cycle error with no rule ever
processed.  (A failed dependency can unblock a cycle member, so a cyclic
in-scope graph does not always raise — see the counterexample.) -/
theorem c2_cycle_error_stops_processing :
    (∀ (σ : Type) (sfd : String → Option String → σ → σ)
        (proc : String → σ → σ × Bool) (st : EngState σ),
        st.queue ≠ [] → drain sfd proc 0 st = .cycle st)
    ∧ (∀ (σ : Type) (sfd : String → Option String → σ → σ)
        (proc : String → σ → σ × Bool) (st : EngState σ) (C : List String),
        (∀ rid s, (proc rid s).2 = true) → st.failed = [] → C ≠ [] →
        (∀ c ∈ C, c ∈ st.queue) → (∀ c ∈ C, c ∈ st.ruleIds) →
        (∀ c ∈ C, c ∉ st.trace) → (∀ c ∈ C, ∃ d ∈ C, d ∈ remOf st c) →
        ∀ b, (drain sfd proc b st).isCycle = true)
    ∧ (c2cycRun.isCycle = true ∧ c2cycRun.traceOf = []) := by
  refine ⟨?_, ?_, by decide⟩
  · intro σ sfd proc st hne
    cases hqq : st.queue with
    | nil => exact absurd hqq hne
    | cons q0 qrest => exact drain_zero sfd proc st q0 qrest hqq
  · intro σ sfd proc st C hproc hfail hne hq hids htr hdep b
    exact drain_cycle_of_locked σ sfd proc hproc b st C hfail hne hq hids htr hdep

/-- Witness for C2: the one-rule self-cycle state exhausts any budget, and
at budget zero the error is raised with the state unchanged. -/
theorem c2_witness :
    (drain sfdUnit procTrue 0 c2wSt = .cycle c2wSt)
    ∧ (drain sfdUnit procTrue 5 c2wSt).isCycle = true :=
  ⟨c2_cycle_error_stops_processing.1 Unit sfdUnit procTrue c2wSt (by decide),
    c2_cycle_error_stops_processing.2.1 Unit sfdUnit procTrue c2wSt ["W"]
      (fun _ _ => rfl) rfl (by decide) (by decide) (by decide) (by decide)
      (by decide) 5⟩

/-- Counterexample to C2 as stated: rules F (fails), X (depends on F and Y)
and Y (depends on X) have the in-scope dependency cycle X → Y → X and are
resolved with dependency fetching enabled, yet the run completes without a
cycle error and every rule is processed: the scan finds X's failed
dependency F and processes X at once, which then unblocks Y. -/
theorem c2_counterexample :
    c2ctrRun.isDone = true
    ∧ c2ctrRun.traceOf = ["F", "X", "Y"]
    ∧ "Y" ∈ erXF.deps ∧ "X" ∈ erYX.deps
    ∧ "X" ∈ c2ctrRun.state.ruleIds ∧ "Y" ∈ c2ctrRun.state.ruleIds := by decide

/-- C5 (amended): when `fetch_dependencies` is explicitly `False`, the
engine never aborts: the dependency-discovery phase (and with it the only
early `return`) is skipped entirely, the queue of dependent rules is still
drained with out-of-scope dependencies ignored, and every accepted target is
processed whenever the run completes normally.  The abort-without-processing
behaviour belongs to the `Ask` policy (`fetch_dependencies=None`) with a
declined confirmation, not to explicit `False`. -/
theorem c5_fetch_false_processes_queue :
    (∀ (σ : Type) (registry : List ERule) (accept : ERule → Bool)
        (sfd : String → Option String → σ → σ) (proc : String → σ → σ × Bool)
        (rules : List ERule) (ask : Bool) (s0 : σ),
        (engRun registry accept sfd proc rules (some false) ask s0).isCanceled =
          false)
    ∧ (∀ (σ : Type) (registry : List ERule) (accept : ERule → Bool)
        (sfd : String → Option String → σ → σ) (proc : String → σ → σ × Bool)
        (rules : List ERule) (ask : Bool) (s0 : σ) (st : EngState σ),
        engRun registry accept sfd proc rules (some false) ask s0 = .done st →
        ∀ r ∈ rules, accept r = true → r.id ∈ st.trace) := by
  constructor
  · intro σ registry accept sfd proc rules ask s0
    by_cases hrules : rules = []
    · simp [engRun, hrules, EngResult.isCanceled]
    · simp [engRun, hrules, drain_not_canceled]
  · intro σ registry accept sfd proc rules ask s0 st hdone r hr ha
    by_cases hrules : rules = []
    · subst hrules; cases hr
    · obtain ⟨hsc, hmono, htgt⟩ := seedPhase_scope accept proc rules
        ({ user := s0 } : EngState σ) (by intro x hx; simp at hx)
      rw [engRun] at hdone
      simp only [if_neg hrules] at hdone
      simp only [reduceCtorEq, ite_true, ite_false, if_pos] at hdone
      obtain ⟨q1, q2, q3⟩ := drain_done_scope sfd proc _ _ st hsc hdone
      apply q3
      rw [q2]
      exact htgt r hr ha

/-- Witness for C5: the rule with an out-of-registry dependency, run with
`fetch_dependencies=False`, completes and is processed. -/
theorem c5_witness :
    (engRun [erRM] (fun _ => true) sfdUnit procTrue [erRM] (some false) true () =
      .done c5wState)
    ∧ erRM ∈ [erRM] ∧ "R" ∈ c5wState.trace :=
  ⟨rfl, by decide,
    c5_fetch_false_processes_queue.2 Unit [erRM] (fun _ => true) sfdUnit procTrue
      [erRM] true () c5wState rfl erRM (by decide) rfl⟩

/-- Counterexample to C5 as stated: rule R depends on "M", which the
registry cannot resolve; with `fetch_dependencies` explicitly `False`, the
claim says the resolution aborts with no process callback run for queued
rules, yet the run completes normally and R (a queued rule) is processed. -/
theorem c5_counterexample :
    getRule [erRM] "M" = none
    ∧ "M" ∈ erRM.deps
    ∧ c5ctrRun.isDone = true
    ∧ c5ctrRun.traceOf = ["R"] := by decide

/-- C6: the retry loop of `resolve` terminates within a budget of
`len(self.rules)` resolve attempts (it also stops when the error set empties
or stops changing); and on the concrete manager whose only rule always
checks invalid while its fix always "succeeds" without changing validity,
`resolve(retry_until_success=True)` terminates after exactly one retry
attempt and returns `False`. -/
theorem c6_retry_bounded_and_terminates :
    (∀ (ω : Type) (mgr : Manager ω) (pre post retry : Bool) (s : MgrState ω)
        (b : Bool) (s' : MgrState ω) (n : Nat),
        resolveM mgr pre post retry s = .ok (b, s', n) → n ≤ mgr.defs.length)
    ∧ resolveM c6Mgr true false true { world := () } = .ok (false, c6Final, 1) := by
  constructor
  · intro ω mgr pre post retry s b s' n h
    rw [resolveM] at h
    rcases hr : resolveRules mgr mgr.registry pre (some false) true s
        with st | st | st <;> rw [hr] at h
    on_goal 3 => simp at h
    all_goals (
      simp only [EngResult.state] at h
      by_cases hpr : (post || retry) = true
      · simp only [hpr, if_true] at h
        rcases hv : validateM mgr st.user with e | p <;> rw [hv] at h
        · simp at h
        · obtain ⟨succ, s2⟩ := p
          by_cases hs : (!succ && retry) = true
          · simp only [hs, if_true] at h
            exact retryLoop_le ω mgr mgr.defs.length [] s2 b s' n h
          · have hs' : (!succ && retry) = false := by
              revert hs; cases (!succ && retry) <;> simp
            simp only [hs', Bool.false_eq_true, if_false] at h
            simp at h
            omega
      · have hpr' : (post || retry) = false := by
          revert hpr; cases (post || retry) <;> simp
        simp only [hpr', Bool.false_eq_true, if_false] at h
        simp at h
        omega)
  · rfl

/-- Witness for C6: the concrete resolve run instantiates the bound. -/
theorem c6_witness : 1 ≤ c6Mgr.defs.length :=
  c6_retry_bounded_and_terminates.1 Unit c6Mgr true false true { world := () }
    false c6Final 1 c6_retry_bounded_and_terminates.2

/-- Witness for C10: concrete raising check and fix callables. -/
theorem c10_witness :
    ((execCheck ruleRaisingCheck initRuleState 0 false).invoked = true
      ∧ (execCheck ruleRaisingCheck initRuleState 0 false).raised = true)
    ∧ ((execFix ruleRaisingFix initRuleState 0 true false).invoked = true
      ∧ (execFix ruleRaisingFix initRuleState 0 true false).raised = true) :=
  ⟨(c10_runtime_errors_cleared Nat ruleRaisingCheck initRuleState 0 true false).1
      (by decide),
    (c10_runtime_errors_cleared Nat ruleRaisingFix initRuleState 0 true false).2
      (by decide)⟩

/-- The drain invariant follows from the phase invariant: queued rules still
carry their full dependency set and processed rules have none. -/
theorem drainInv_of_phaseInv (registry : List ERule) (accept : ERule → Bool)
    (targets : List ERule) (st : EngState σ)
    (h : PhaseInv registry accept targets st) : DrainInv registry st := by
  refine ⟨h.trace_nodup, h.queue_nodup, h.queue_fresh, h.ids_iff,
    h.failed_sub, ?_, ?_, ?_⟩
  · intro q hq dd hdd
    have hdd' : dd ∈ (lookupA st.depsMap q).getD [] := hdd
    rw [h.rem_full q hq, Option.getD_some] at hdd'
    exact hdd'
  · intro q hq dd hdd hnot
    have hnot' : dd ∉ (lookupA st.depsMap q).getD [] := hnot
    rw [h.rem_full q hq, Option.getD_some] at hnot'
    exact absurd hdd hnot'
  · intro k hk dd hdd _
    rw [h.trace_nodeps (st.trace.get ⟨k, hk⟩)
      (List.get_mem st.trace k hk)] at hdd
    cases hdd

/-- C1 (amended): with a duplicate-free registry and pairwise-distinct
targets drawn from it, a `_process_rules` run that completes normally
invokes the process callback exactly once per reachable rule — the accepted
targets plus, unless dependency fetching is disabled, their transitive
in-registry dependencies — and a rule is processed only after each of its
in-scope declared dependencies, except that discovering an already-failed
dependency releases the rule for immediate processing. -/
theorem c1_reachable_processed_once (σ : Type) (registry : List ERule)
    (accept : ERule → Bool) (sfd : String → Option String → σ → σ)
    (proc : String → σ → σ × Bool) (rules : List ERule) (fetch : Option Bool)
    (ask : Bool) (s0 : σ) (st : EngState σ)
    (hreg : (regIds registry).Nodup)
    (hsub : ∀ r ∈ rules, r ∈ registry)
    (hids : (rules.map ERule.id).Nodup)
    (hf : fetch = some true ∨ (fetch = none ∧ ask = true) ∨ fetch = some false)
    (hdone : engRun registry accept sfd proc rules fetch ask s0 = .done st) :
    st.trace.Nodup ∧
    (∀ x, x ∈ st.trace ↔ reachSpec registry accept rules fetch x) ∧
    orderRespected registry st := by
  by_cases hrn : rules = []
  · subst hrn
    rw [engRun, if_pos rfl] at hdone
    injection hdone with h
    subst h
    refine ⟨by simp, ?_, ?_⟩
    · intro x
      constructor
      · intro hx
        simp at hx
      · intro hx
        exfalso
        rcases hf with rfl | ⟨rfl, _⟩ | rfl
        · exact EReach_nil registry accept x hx.1
        · exact EReach_nil registry accept x hx.1
        · obtain ⟨r, hr, _⟩ := hx
          cases hr
    · intro k hk
      simp at hk
  · obtain ⟨hinv1, hcov1⟩ := seedPhase_phaseInv registry accept rules proc hreg
      rules ({ user := s0 }) hsub (fun r hr => hr) hids
      (by intro r hr; simp)
      (phaseInv_init registry accept rules s0) (coveredBy_init registry s0)
    have hseed : ∀ x, x ∈ (seedPhase accept proc rules
        ({ user := s0 } : EngState σ)).ruleIds ↔
        (∃ r ∈ rules, accept r = true ∧ r.id = x) := by
      intro x
      rw [seedPhase_ids]
      simp
    rcases hf with rfl | ⟨rfl, rfl⟩ | rfl
    · rw [engRun] at hdone
      simp only [if_neg hrn] at hdone
      obtain ⟨st2, heq, hnil, hinv2, hcov2, hmono⟩ :=
        fetchLoop_phaseInv registry accept rules proc ask hreg
          (depWeight registry (seedPhase accept proc rules
            ({ user := s0 } : EngState σ)))
          (some true) (seedPhase accept proc rules { user := s0 }) le_rfl
          (Or.inl rfl) hinv1 hcov1
      rw [heq] at hdone
      obtain ⟨hD, hqz, hidseq⟩ := drain_drainInv registry sfd proc
        (maxIters st2.queueCount + 1) st2 st
        (drainInv_of_phaseInv registry accept rules st2 hinv2) hdone
      have hreach_closed : ∀ x, EReach registry accept rules x →
          x ∈ regIds registry → x ∈ st2.ruleIds := by
        intro x hx
        induction hx with
        | tgt r hr ha =>
          intro _
          exact hmono r.id ((hseed r.id).mpr ⟨r, hr, ha, rfl⟩)
        | dep rid r d hre hgr hd ih =>
          intro hdreg
          have hridreg : rid ∈ regIds registry := by
            obtain ⟨hm, he⟩ := getRule_mem registry rid r hgr
            rw [← he]
            exact List.mem_map_of_mem ERule.id hm
          have hridin : rid ∈ st2.ruleIds := ih hridreg
          have hdd : d ∈ depsOfId registry rid := by
            simp only [depsOfId, hgr, Option.map_some, Option.getD_some]
            exact hd
          rcases hcov2 rid hridin d hdd with h | h | h
          · exact h
          · rw [hnil] at h
            cases h
          · exact absurd hdreg h
      refine ⟨hD.trace_nodup, ?_, hD.ordered⟩
      intro x
      have hxid : x ∈ st.ruleIds ↔ x ∈ st.trace := by
        rw [hD.ids_iff x, hqz]
        simp
      constructor
      · intro hx
        have hxi : x ∈ st.ruleIds := hxid.mpr hx
        rw [hidseq] at hxi
        exact hinv2.reach_ids x hxi
      · intro hx
        refine hxid.mp ?_
        rw [hidseq]
        exact hreach_closed x hx.1 hx.2
    · rw [engRun] at hdone
      simp only [if_neg hrn] at hdone
      obtain ⟨st2, heq, hnil, hinv2, hcov2, hmono⟩ :=
        fetchLoop_phaseInv registry accept rules proc true hreg
          (depWeight registry (seedPhase accept proc rules
            ({ user := s0 } : EngState σ)))
          none (seedPhase accept proc rules { user := s0 }) le_rfl
          (Or.inr ⟨rfl, rfl⟩) hinv1 hcov1
      rw [heq] at hdone
      obtain ⟨hD, hqz, hidseq⟩ := drain_drainInv registry sfd proc
        (maxIters st2.queueCount + 1) st2 st
        (drainInv_of_phaseInv registry accept rules st2 hinv2) hdone
      have hreach_closed : ∀ x, EReach registry accept rules x →
          x ∈ regIds registry → x ∈ st2.ruleIds := by
        intro x hx
        induction hx with
        | tgt r hr ha =>
          intro _
          exact hmono r.id ((hseed r.id).mpr ⟨r, hr, ha, rfl⟩)
        | dep rid r d hre hgr hd ih =>
          intro hdreg
          have hridreg : rid ∈ regIds registry := by
            obtain ⟨hm, he⟩ := getRule_mem registry rid r hgr
            rw [← he]
            exact List.mem_map_of_mem ERule.id hm
          have hridin : rid ∈ st2.ruleIds := ih hridreg
          have hdd : d ∈ depsOfId registry rid := by
            simp only [depsOfId, hgr, Option.map_some, Option.getD_some]
            exact hd
          rcases hcov2 rid hridin d hdd with h | h | h
          · exact h
          · rw [hnil] at h
            cases h
          · exact absurd hdreg h
      refine ⟨hD.trace_nodup, ?_, hD.ordered⟩
      intro x
      have hxid : x ∈ st.ruleIds ↔ x ∈ st.trace := by
        rw [hD.ids_iff x, hqz]
        simp
      constructor
      · intro hx
        have hxi : x ∈ st.ruleIds := hxid.mpr hx
        rw [hidseq] at hxi
        exact hinv2.reach_ids x hxi
      · intro hx
        refine hxid.mp ?_
        rw [hidseq]
        exact hreach_closed x hx.1 hx.2
    · rw [engRun] at hdone
      simp only [if_neg hrn] at hdone
      obtain ⟨hD, hqz, hidseq⟩ := drain_drainInv registry sfd proc
        (maxIters (seedPhase accept proc rules
          ({ user := s0 } : EngState σ)).queueCount + 1)
        (seedPhase accept proc rules { user := s0 }) st
        (drainInv_of_phaseInv registry accept rules _ hinv1) hdone
      refine ⟨hD.trace_nodup, ?_, hD.ordered⟩
      intro x
      have hxid : x ∈ st.ruleIds ↔ x ∈ st.trace := by
        rw [hD.ids_iff x, hqz]
        simp
      constructor
      · intro hx
        have hxi : x ∈ st.ruleIds := hxid.mpr hx
        rw [hidseq] at hxi
        exact (hseed x).mp hxi
      · intro hx
        refine hxid.mp ?_
        rw [hidseq]
        exact (hseed x).mpr hx

/-- Witness for C1: on the clean two-rule run (B depends on A, both
targets), the hypotheses hold and the conclusion is instantiated. -/
theorem c1_witness :
    (regIds [erA, erB]).Nodup ∧
    (c1wState.trace.Nodup ∧
      (∀ x, x ∈ c1wState.trace ↔
        reachSpec [erA, erB] (fun _ => true) [erA, erB] (some true) x) ∧
      orderRespected [erA, erB] c1wState) :=
  ⟨by decide,
    c1_reachable_processed_once Unit [erA, erB] (fun _ => true) sfdUnit
      procTrue [erA, erB] (some true) true () c1wState (by decide) (by decide)
      (by decide) (Or.inl rfl) rfl⟩

/-- Counterexample to C1 as stated: in the run where A's processing fails,
rule R (whose declared dependencies are A and B) is processed at trace
position 2, before its in-scope dependency B (processed last); and a target
duplicated in the input list has the process callback invoked twice. -/
theorem c1_counterexample :
    c1ctrRun.traceOf = ["A", "C", "R", "B"]
    ∧ "B" ∈ depsOfId [erA, erR, erBC, erC] "R"
    ∧ "B" ∈ c1ctrRun.state.ruleIds
    ∧ "B" ∉ c1ctrRun.traceOf.take 3
    ∧ c1dupRun.traceOf = ["A", "A"] := by decide

end DataValidation
